import Mathlib

/-!
Verification of the core of the `pdfpasswordrecovery` repository: the
candidate password generator (`src/password_generator.py`), the search
worker thread (`src/main.py`, `PasswordRecoveryThread`), the memory
classification checks of both worker threads, and the decryption wrapper
(`src/pdf_recovery.py`, `PDFPasswordRecovery.try_password`).

Passwords are modelled as `List Char`; Python lists as `List`; Python's
`float('inf')` password cap as `Option Nat` (`none` = unlimited); the
fallible PDF library calls as `Except`-valued environments.
-/

set_option maxHeartbeats 1000000

/-- `string.ascii_lowercase`. -/
def ascii_lowercase : List Char := "abcdefghijklmnopqrstuvwxyz".toList

/-- `string.ascii_uppercase`. -/
def ascii_uppercase : List Char := "ABCDEFGHIJKLMNOPQRSTUVWXYZ".toList

/-- `string.digits`. -/
def digit_chars : List Char := "0123456789".toList

/-- The special-character set `'!@#$%^&*'` used by the generator. -/
def special_chars : List Char := "!@#$%^&*".toList

/-- Configuration fields of `PasswordGenerator.__init__`
(`src/password_generator.py`).  Field defaults mirror the Python
keyword defaults. -/
structure PasswordGenerator where
  min_length : Nat := 4
  max_length : Nat := 6
  use_lowercase : Bool := true
  use_uppercase : Bool := false
  use_digits : Bool := true
  use_special : Bool := false
  no_limit : Bool := false

namespace PasswordGenerator

/-- `self.MAX_PASSWORDS = float('inf') if no_limit else 1000000`:
`none` models infinity. -/
def MAX_PASSWORDS (g : PasswordGenerator) : Option Nat :=
  if g.no_limit then none else some 1000000

/-- The character set built at the top of `generate_passwords`:
concatenation of the selected classes in the fixed order
lowercase, uppercase, digits, special; defaulting to lowercase
when nothing is selected. -/
def activeChars (g : PasswordGenerator) : List Char :=
  let chars :=
    (if g.use_lowercase then ascii_lowercase else [])
    ++ (if g.use_uppercase then ascii_uppercase else [])
    ++ (if g.use_digits then digit_chars else [])
    ++ (if g.use_special then special_chars else [])
  if chars = [] then ascii_lowercase else chars

/-- The character count computed inside `estimate_count`
(26/26/10/8 per class, defaulting to 26 when the sum is zero). -/
def char_count (g : PasswordGenerator) : Nat :=
  let n :=
    (if g.use_lowercase then 26 else 0)
    + (if g.use_uppercase then 26 else 0)
    + (if g.use_digits then 10 else 0)
    + (if g.use_special then 8 else 0)
  if n = 0 then 26 else n

/-- `range(self.min_length, self.max_length + 1)`. -/
def lengthRange (g : PasswordGenerator) : List Nat :=
  List.range' g.min_length (g.max_length + 1 - g.min_length)

/-- The running total loop of `estimate_count`:
`total = 0; for length in range(...): total += char_count ** length`. -/
def rawTotal (g : PasswordGenerator) : Nat :=
  (g.lengthRange).foldl (fun total length => total + g.char_count ^ length) 0

/-- `PasswordGenerator.estimate_count` (`src/password_generator.py:224-255`). -/
def estimate_count (g : PasswordGenerator) : Nat :=
  if g.no_limit then g.rawTotal else min g.rawTotal 1000000

end PasswordGenerator

/-- `itertools.product(chars, repeat=n)`, each tuple joined to a string:
odometer order, leftmost position outermost (rightmost varies fastest). -/
def pyProduct (chars : List Char) : Nat → List (List Char)
  | 0 => [[]]
  | n + 1 => chars.flatMap (fun c => (pyProduct chars n).map (fun p => c :: p))

/-- The mixed letter-number group of the structured fallback
(`src/password_generator.py:166-176`): outer loop over lowercase
strings of length `length // 2`, inner loop over digit strings of
length `length - length // 2`, concatenated. -/
def mixedGroup (length : Nat) : List (List Char) :=
  let half := length / 2
  (pyProduct ascii_lowercase half).flatMap
    (fun letters => (pyProduct digit_chars (length - half)).map
      (fun ds => letters ++ ds))

/-- The `count >= self.MAX_PASSWORDS` test (`False` against infinity). -/
def capLe (cap : Option Nat) (count : Nat) : Bool :=
  match cap with
  | none => false
  | some b => b ≤ count

/-- The `combinations_count + count > self.MAX_PASSWORDS` test
(`False` against infinity). -/
def capLt (cap : Option Nat) (x : Nat) : Bool :=
  match cap with
  | none => false
  | some b => b < x

/-- The two callbacks of `generate_passwords`.  A `none` callback in
Python behaves exactly like a constantly-`true` one as far as the
produced list is concerned, so callbacks are modelled as total
functions. -/
structure GenCallbacks where
  progress : Nat → Nat → Bool
  pattern : List Char → Bool

/-- The mutable locals of `generate_passwords`: the accumulated list,
the counter, the trace of `(count, total)` arguments passed to the
progress callback, and whether one of the `return passwords` exits
has been taken. -/
structure GenState where
  passwords : List (List Char)
  count : Nat
  progress_calls : List (Nat × Nat)
  stopped : Bool
  deriving DecidableEq

/-- The shared per-password body of every emission loop in
`generate_passwords`: append, increment, periodic progress callback
(cancellable), occasional pattern callback (cancellable), then the
hard-cap check with its final progress notification. -/
def emitItem (cb : GenCallbacks) (interval total : Nat) (cap : Option Nat)
    (st : GenState) (item : List Char) : GenState :=
  if st.stopped then st
  else
    let count := st.count + 1
    let pws := st.passwords ++ [item]
    let calls :=
      if count % interval = 0 then st.progress_calls ++ [(count, total)]
      else st.progress_calls
    if count % interval = 0 ∧ cb.progress count total = false then
      ⟨pws, count, calls, true⟩
    else if count % (interval * 10) = 0 ∧ cb.pattern item = false then
      ⟨pws, count, calls, true⟩
    else if capLe cap count then
      ⟨pws, count, calls ++ [(count, total)], true⟩
    else
      ⟨pws, count, calls, false⟩

/-- One emission loop over a fixed group of candidate strings. -/
def emitGroup (cb : GenCallbacks) (interval total : Nat) (cap : Option Nat)
    (items : List (List Char)) (st : GenState) : GenState :=
  items.foldl (emitItem cb interval total cap) st

/-- The body of `for length in range(min_length, max_length + 1)` in
`generate_passwords` (`src/password_generator.py:79-216`): budget test,
short-length full product, structured fallback (lowercase group,
digits group, mixed group), or full product. -/
def genLength (g : PasswordGenerator) (cb : GenCallbacks)
    (interval total : Nat) (st : GenState) (length : Nat) : GenState :=
  if st.stopped then st
  else
    let chars := g.activeChars
    let combinations_count := chars.length ^ length
    if capLt g.MAX_PASSWORDS (combinations_count + st.count) then
      if length ≤ 3 then
        emitGroup cb interval total g.MAX_PASSWORDS (pyProduct chars length) st
      else
        let st1 :=
          if g.use_lowercase then
            emitGroup cb interval total g.MAX_PASSWORDS
              (pyProduct ascii_lowercase length) st
          else st
        let st2 :=
          if g.use_digits then
            emitGroup cb interval total g.MAX_PASSWORDS
              (pyProduct digit_chars length) st1
          else st1
        if 4 ≤ length ∧ g.use_lowercase ∧ g.use_digits then
          emitGroup cb interval total g.MAX_PASSWORDS (mixedGroup length) st2
        else st2
    else
      emitGroup cb interval total g.MAX_PASSWORDS (pyProduct chars length) st

/-- `PasswordGenerator.generate_passwords` (`src/password_generator.py:35-222`):
initial progress notification, per-length emission, and the final
progress notification that only the non-returning path reaches. -/
def PasswordGenerator.generate_passwords (g : PasswordGenerator)
    (cb : GenCallbacks) : GenState :=
  let total := g.estimate_count
  let interval := max 1 (min 10000 (total / 100))
  let st0 : GenState := ⟨[], 0, [(0, total)], false⟩
  let st := (g.lengthRange).foldl (genLength g cb interval total) st0
  if st.stopped then st
  else { st with progress_calls := st.progress_calls ++ [(st.count, total)] }

/-- A candidate password. -/
abbrev Pw := List Char

/-- Signals emitted by `PasswordRecoveryThread` during `run`
(`src/main.py:160-230`). -/
inductive SEvent where
  | progress (p : Nat)
  | current (pw : Pw)
  | foundEv (pw : Pw)
  | notFoundEv
  deriving DecidableEq

/-- Terminal condition of one `run` invocation: `password_found`
emitted, `password_not_found` emitted, or a bare `return` after
observing the cancelled flag. -/
inductive Outcome where
  | found (pw : Pw)
  | notFound
  | cancelled
  deriving DecidableEq

/-- Observable result of the worker loop: the indices passed to
`recovery.try_password`, the emitted signals in order, and the terminal
condition. -/
structure SearchRes where
  tested : List Nat
  events : List SEvent
  outcome : Outcome
  deriving DecidableEq

/-- The inner `for j in range(i, end_batch)` loop of
`PasswordRecoveryThread.run` (`src/main.py:200-213`): emit the current
password every 10 indices, test it, stop on success, otherwise advance
`current_position`.  `n` counts the remaining indices of the batch;
every call site keeps `i + n ≤ l.length`, so `getD` never takes its
default. -/
def procBatch (tryPw : Pw → Bool) (l : List Pw) : Nat → Nat → List Nat × List SEvent × Option Pw
  | _, 0 => ([], [], none)
  | i, n + 1 =>
    let pw := l.getD i []
    let ev : List SEvent := if i % 10 = 0 then [SEvent.current pw] else []
    if tryPw pw then ([i], ev, some pw)
    else
      let r := procBatch tryPw l (i + 1) n
      (i :: r.1, ev ++ r.2.1, r.2.2)

/-- The `while i < total` loop of `PasswordRecoveryThread.run`
(`src/main.py:190-230`).  `cancelObs t` is the value of the shared
`cancelled` flag that `check_cancelled` observes at the `t`-th loop
iteration; `check_paused` only blocks and touches no state read by the
loop, so a pause (followed by the resume or cancel that releases it)
leaves the trace unchanged.  `pastGate` marks the single entry point
just after the pause gate, past the iteration's cancel check — used to
model a worker woken inside `check_paused`.  `fuel` bounds the loop
iterations; each iteration advances `i` by at least one, so any
`fuel > l.length - i` computes the loop exactly. -/
def runLoopFuel (tryPw : Pw → Bool) (l : List Pw) (cancelObs : Nat → Bool) :
    Nat → Nat → Nat → Bool → SearchRes
  | 0, _, _, _ => ⟨[], [], Outcome.cancelled⟩
  | fuel + 1, t, i, pastGate =>
    if i < l.length then
      if pastGate = false ∧ cancelObs t = true then ⟨[], [], Outcome.cancelled⟩
      else
        let e := min (i + 100) l.length
        let b := procBatch tryPw l i (e - i)
        match b.2.2 with
        | some pw => ⟨b.1, b.2.1 ++ [SEvent.foundEv pw], Outcome.found pw⟩
        | none =>
          let r := runLoopFuel tryPw l cancelObs fuel (t + 1) e false
          ⟨b.1 ++ r.tested,
           b.2.1 ++ [SEvent.progress (e * 100 / l.length)] ++ r.events,
           r.outcome⟩
    else ⟨[], [SEvent.notFoundEv], Outcome.notFound⟩

namespace PasswordRecoveryThread

/-- `PasswordRecoveryThread.run` started with `current_position = start`
(`src/main.py:180-230`).  Python's `int(end_batch / total * 100)` is
modelled as natural floor division `e * 100 / total`. -/
def run (tryPw : Pw → Bool) (l : List Pw) (cancelObs : Nat → Bool)
    (start : Nat) : SearchRes :=
  runLoopFuel tryPw l cancelObs (l.length + 1) 0 start false

/-- The continuation of a worker that was blocked inside `check_paused`
at loop position `i` when `cancel()` ran: `cancel` sets
`cancelled = True`, clears `paused` and wakes the wait condition, so
the worker resumes just past the gate with every later `check_cancelled`
observing `True`. -/
def runAfterCancelFromGate (tryPw : Pw → Bool) (l : List Pw) (i : Nat) : SearchRes :=
  runLoopFuel tryPw l (fun _ => true) (l.length + 1) 0 i true

end PasswordRecoveryThread

/-- A cancelled flag that is never set: the normal uninterrupted run. -/
def cancelNever : Nat → Bool := fun _ => false

/-- The progress bar of the app after the UI slots of
`PDFPasswordRecoveryApp` process the worker's signals in order:
`update_progress` stores the emitted percentage, `on_password_found`
and `on_password_not_found` both set the bar to 100
(`src/main.py:973-996`). -/
def progressBarFinal (events : List SEvent) : Nat :=
  events.foldl
    (fun bar e =>
      match e with
      | SEvent.progress p => p
      | SEvent.current _ => bar
      | SEvent.foundEv _ => 100
      | SEvent.notFoundEv => 100)
    0

/-- Environment of one `PDFPasswordRecovery.try_password` call
(`src/pdf_recovery.py:13-43`): opening/parsing the file may raise
(`openDoc`), `reader.is_encrypted` is a plain flag, and
`reader.decrypt(password)` either raises or reports success. -/
structure PdfEnv where
  openDoc : Except String Unit
  is_encrypted : Bool
  decrypt : Pw → Except String Bool

/-- `PDFPasswordRecovery.try_password`: `True` when the document is not
encrypted or the password decrypts it; `False` for a wrong password and
for any exception raised during the attempt (the `except` arm logs and
returns `False`). -/
def try_password (env : PdfEnv) (password : Pw) : Bool :=
  match env.openDoc with
  | Except.error _ => false
  | Except.ok _ =>
    if env.is_encrypted then
      match env.decrypt password with
      | Except.ok b => b
      | Except.error _ => false
    else true

/-- `PasswordGenerationThread.check_memory_usage` warning condition
(`src/main.py:148`): `memory_mb > self.memory_limit_mb * 0.8`.
Python float samples and limits are modelled as rationals. -/
def generationWarns (memory_mb memory_limit_mb : ℚ) : Bool :=
  memory_limit_mb * (8 / 10) < memory_mb

/-- `PasswordGenerationThread.check_memory_usage` cancellation condition
(`src/main.py:152`): `memory_mb > self.memory_limit_mb * 0.95`. -/
def generationCancels (memory_mb memory_limit_mb : ℚ) : Bool :=
  memory_limit_mb * (95 / 100) < memory_mb

/-- `PasswordRecoveryThread.check_memory_usage` warning condition
(`src/main.py:276`): `memory_mb > self.memory_limit_mb * 0.8`. -/
def searchWarns (memory_mb memory_limit_mb : ℚ) : Bool :=
  memory_limit_mb * (8 / 10) < memory_mb

/-- `PasswordRecoveryThread.check_memory_usage` cancellation condition
(`src/main.py:280`): `memory_mb > self.memory_limit_mb`. -/
def searchCancels (memory_mb memory_limit_mb : ℚ) : Bool :=
  memory_limit_mb < memory_mb

/-- The hard-cap invariant: the counter never exceeds the finite cap,
and a state that has not taken a `return` exit is strictly below it. -/
def CapInv (cap : Option Nat) (st : GenState) : Prop :=
  match cap with
  | none => True
  | some b => st.count ≤ b ∧ (st.stopped = false → st.count < b)

/-- The list length always equals the counter. -/
def LenInv (st : GenState) : Prop := st.passwords.length = st.count

/-- Every recorded progress-callback invocation carried a count that was
current at the time (hence at most the final count) and the fixed total
estimate. -/
def CallsInv (total : Nat) (st : GenState) : Prop :=
  ∀ p ∈ st.progress_calls, p.1 ≤ st.count ∧ p.2 = total

/-- The trivial callbacks: every invocation allows continuation (the
behaviour of passing `None` for both callbacks in Python). -/
def cbTrue : GenCallbacks := ⟨fun _ _ => true, fun _ => true⟩

/-- A document environment that opens and is encrypted, but whose
decryption raises an I/O error on every candidate. -/
def ioErrEnv : PdfEnv := ⟨Except.ok (), true, fun _ => Except.error "io"⟩


/-! ### Basic facts about the enumeration building blocks -/

theorem sum_map_const {α : Type} (l : List α) (c : Nat) :
    (l.map (fun _ => c)).sum = l.length * c := by
  induction l with
  | nil => simp
  | cons x xs ih => simp [ih, Nat.succ_mul, Nat.add_comm]

theorem pyProduct_length (chars : List Char) (n : Nat) :
    (pyProduct chars n).length = chars.length ^ n := by
  induction n with
  | zero => simp [pyProduct]
  | succ n ih =>
    simp only [pyProduct, List.length_flatMap, Function.comp_def,
      List.length_map, ih]
    rw [sum_map_const, pow_succ, Nat.mul_comm]

theorem pyProduct_mem_length (chars : List Char) (n : Nat) (p : List Char)
    (hp : p ∈ pyProduct chars n) : p.length = n := by
  induction n generalizing p with
  | zero => simp [pyProduct] at hp; simp [hp]
  | succ n ih =>
    simp only [pyProduct, List.mem_flatMap, List.mem_map] at hp
    obtain ⟨c, _, q, hq, rfl⟩ := hp
    simp [ih q hq]

theorem mixedGroup_length (L : Nat) :
    (mixedGroup L).length = 26 ^ (L / 2) * 10 ^ (L - L / 2) := by
  simp only [mixedGroup, List.length_flatMap, Function.comp_def,
    List.length_map]
  rw [sum_map_const, pyProduct_length, pyProduct_length]
  rfl

theorem mixedGroup_mem_length (L : Nat) (p : List Char)
    (hp : p ∈ mixedGroup L) : p.length = L := by
  simp only [mixedGroup, List.mem_flatMap, List.mem_map] at hp
  obtain ⟨letters, hl, ds, hd, rfl⟩ := hp
  have h1 := pyProduct_mem_length _ _ _ hl
  have h2 := pyProduct_mem_length _ _ _ hd
  have hhalf : L / 2 ≤ L := Nat.div_le_self L 2
  simp [h1, h2]
  omega

/-! ### Per-item and per-group emission lemmas -/

theorem emitItem_of_stopped (cb : GenCallbacks) (interval total : Nat)
    (cap : Option Nat) (st : GenState) (x : List Char)
    (hst : st.stopped = true) : emitItem cb interval total cap st x = st := by
  simp [emitItem, hst]

theorem emitItem_fields (cb : GenCallbacks) (interval total : Nat)
    (cap : Option Nat) (st : GenState) (x : List Char)
    (hst : st.stopped = false) :
    (emitItem cb interval total cap st x).passwords = st.passwords ++ [x] ∧
    (emitItem cb interval total cap st x).count = st.count + 1 := by
  simp only [emitItem, hst, Bool.false_eq_true, if_false]
  split_ifs <;> simp

theorem capLe_mono (cap : Option Nat) (a b : Nat) (hab : b ≤ a)
    (ha : capLe cap a = false) : capLe cap b = false := by
  cases cap with
  | none => rfl
  | some v => simp [capLe] at ha ⊢; omega

theorem emitItem_all (cb : GenCallbacks) (interval total : Nat)
    (cap : Option Nat) (st : GenState) (x : List Char)
    (hst : st.stopped = false)
    (hp : ∀ c t, cb.progress c t = true) (hq : ∀ s, cb.pattern s = true)
    (hcap : capLe cap (st.count + 1) = false) :
    (emitItem cb interval total cap st x).passwords = st.passwords ++ [x] ∧
    (emitItem cb interval total cap st x).count = st.count + 1 ∧
    (emitItem cb interval total cap st x).stopped = false := by
  simp only [emitItem, hst, Bool.false_eq_true, if_false]
  simp [hp, hq, hcap]

theorem emitGroup_of_stopped (cb : GenCallbacks) (interval total : Nat)
    (cap : Option Nat) (items : List (List Char)) (st : GenState)
    (hst : st.stopped = true) :
    emitGroup cb interval total cap items st = st := by
  induction items with
  | nil => rfl
  | cons x xs ih =>
    simp only [emitGroup, List.foldl_cons] at *
    rw [emitItem_of_stopped _ _ _ _ _ _ hst, ih]

theorem emitGroup_take (cb : GenCallbacks) (interval total : Nat)
    (cap : Option Nat) (items : List (List Char)) (st : GenState) :
    ∃ k, k ≤ items.length ∧
      (emitGroup cb interval total cap items st).passwords
        = st.passwords ++ items.take k ∧
      (emitGroup cb interval total cap items st).count = st.count + k := by
  induction items generalizing st with
  | nil => exact ⟨0, by simp, by simp [emitGroup], by simp [emitGroup]⟩
  | cons x xs ih =>
    by_cases hst : st.stopped = true
    · refine ⟨0, Nat.zero_le _, ?_, ?_⟩ <;>
        simp [emitGroup_of_stopped _ _ _ _ _ _ hst]
    · simp only [Bool.not_eq_true] at hst
      have hf := emitItem_fields cb interval total cap st x hst
      obtain ⟨k, hk, hpw, hc⟩ := ih (emitItem cb interval total cap st x)
      have hcons : emitGroup cb interval total cap (x :: xs) st
          = emitGroup cb interval total cap xs
              (emitItem cb interval total cap st x) := rfl
      refine ⟨k + 1, Nat.succ_le_succ hk, ?_, ?_⟩
      · rw [hcons, hpw, hf.1, List.take_succ_cons, List.append_assoc]
        rfl
      · rw [hcons, hc, hf.2]
        omega

theorem emitGroup_all (cb : GenCallbacks) (interval total : Nat)
    (cap : Option Nat) (items : List (List Char)) (st : GenState)
    (hst : st.stopped = false)
    (hp : ∀ c t, cb.progress c t = true) (hq : ∀ s, cb.pattern s = true)
    (hcap : capLe cap (st.count + items.length) = false) :
    (emitGroup cb interval total cap items st).passwords
      = st.passwords ++ items ∧
    (emitGroup cb interval total cap items st).count
      = st.count + items.length ∧
    (emitGroup cb interval total cap items st).stopped = false := by
  induction items generalizing st with
  | nil => exact ⟨by simp [emitGroup], by simp [emitGroup], by simp [emitGroup, hst]⟩
  | cons x xs ih =>
    have hcap1 : capLe cap (st.count + 1) = false :=
      capLe_mono _ _ _ (by simp only [List.length_cons]; omega) hcap
    have hf := emitItem_all cb interval total cap st x hst hp hq hcap1
    have hcap2 : capLe cap ((emitItem cb interval total cap st x).count
        + xs.length) = false := by
      rw [hf.2.1]
      exact capLe_mono _ _ _ (by simp only [List.length_cons]; omega) hcap
    obtain ⟨ha, hb, hc⟩ := ih (emitItem cb interval total cap st x) hf.2.2 hcap2
    refine ⟨?_, ?_, ?_⟩
    · simp only [emitGroup, List.foldl_cons] at ha ⊢
      rw [ha, hf.1]; simp
    · simp only [emitGroup, List.foldl_cons, List.length_cons] at hb ⊢
      rw [hb, hf.2.1]; omega
    · simpa only [emitGroup, List.foldl_cons] using hc

/-! ### Invariants preserved by every emission step -/

theorem foldl_inv {α β : Type} (P : β → Prop) (f : β → α → β)
    (h : ∀ b a, P b → P (f b a)) :
    ∀ (l : List α) (b : β), P b → P (l.foldl f b) := by
  intro l
  induction l with
  | nil => intro b hb; exact hb
  | cons x xs ih =>
    intro b hb
    simp only [List.foldl_cons]
    exact ih _ (h _ _ hb)

theorem emitItem_cap_stopped (cb : GenCallbacks) (interval total : Nat)
    (cap : Option Nat) (st : GenState) (x : List Char)
    (hst : st.stopped = false)
    (hcap : capLe cap (st.count + 1) = true) :
    (emitItem cb interval total cap st x).stopped = true := by
  by_cases hA : (st.count + 1) % interval = 0 <;>
    simp only [emitItem, hst, hA, Bool.false_eq_true, if_false] <;>
    split_ifs <;> rfl

theorem emitItem_stopped_cap (cb : GenCallbacks) (interval total : Nat)
    (cap : Option Nat) (st : GenState) (x : List Char)
    (hst : st.stopped = false)
    (hres : (emitItem cb interval total cap st x).stopped = false) :
    capLe cap (st.count + 1) = false := by
  cases hcap : capLe cap (st.count + 1) with
  | false => rfl
  | true =>
    rw [emitItem_cap_stopped cb interval total cap st x hst hcap] at hres
    exact absurd hres (by simp)

theorem emitItem_capInv (cb : GenCallbacks) (interval total : Nat)
    (cap : Option Nat) (st : GenState) (x : List Char)
    (h : CapInv cap st) : CapInv cap (emitItem cb interval total cap st x) := by
  cases cap with
  | none => trivial
  | some b =>
    by_cases hst : st.stopped = true
    · rw [emitItem_of_stopped _ _ _ _ _ _ hst]; exact h
    · simp only [Bool.not_eq_true] at hst
      obtain ⟨h1, h2⟩ := h
      have hlt := h2 hst
      have hc := (emitItem_fields cb interval total (some b) st x hst).2
      refine ⟨by rw [hc]; omega, fun hres => ?_⟩
      have hcap := emitItem_stopped_cap cb interval total (some b) st x hst hres
      simp only [capLe, decide_eq_false_iff_not, Nat.not_le] at hcap
      rw [hc]
      omega

theorem emitItem_lenInv (cb : GenCallbacks) (interval total : Nat)
    (cap : Option Nat) (st : GenState) (x : List Char)
    (h : LenInv st) : LenInv (emitItem cb interval total cap st x) := by
  by_cases hst : st.stopped = true
  · rw [emitItem_of_stopped _ _ _ _ _ _ hst]; exact h
  · simp only [Bool.not_eq_true] at hst
    have hf := emitItem_fields cb interval total cap st x hst
    unfold LenInv at *
    rw [hf.1, hf.2, List.length_append, h]
    rfl

theorem emitItem_count_le (cb : GenCallbacks) (interval total : Nat)
    (cap : Option Nat) (st : GenState) (x : List Char) :
    st.count ≤ (emitItem cb interval total cap st x).count := by
  by_cases hst : st.stopped = true
  · rw [emitItem_of_stopped _ _ _ _ _ _ hst]
  · simp only [Bool.not_eq_true] at hst
    rw [(emitItem_fields cb interval total cap st x hst).2]
    omega

theorem emitItem_calls_extend (cb : GenCallbacks) (interval total : Nat)
    (cap : Option Nat) (st : GenState) (x : List Char)
    (hst : st.stopped = false) :
    ∃ extra, (emitItem cb interval total cap st x).progress_calls
        = st.progress_calls ++ extra ∧
      ∀ p ∈ extra, p = (st.count + 1, total) := by
  by_cases hA : (st.count + 1) % interval = 0
  · simp only [emitItem, hst, hA, Bool.false_eq_true, if_false]
    split_ifs with c1 c2 c3
    · exact ⟨[(st.count + 1, total)], by simp, by simp⟩
    · exact ⟨[(st.count + 1, total)], by simp, by simp⟩
    · exact ⟨[(st.count + 1, total), (st.count + 1, total)], by simp, by simp⟩
    · exact ⟨[(st.count + 1, total)], by simp, by simp⟩
  · simp only [emitItem, hst, hA, Bool.false_eq_true, if_false]
    split_ifs with c1 c2 c3
    · exact ⟨[], by simp, by simp⟩
    · exact ⟨[], by simp, by simp⟩
    · exact ⟨[(st.count + 1, total)], by simp, by simp⟩
    · exact ⟨[], by simp, by simp⟩

theorem emitItem_callsInv (cb : GenCallbacks) (interval total : Nat)
    (cap : Option Nat) (st : GenState) (x : List Char)
    (h : CallsInv total st) :
    CallsInv total (emitItem cb interval total cap st x) := by
  by_cases hst : st.stopped = true
  · rw [emitItem_of_stopped _ _ _ _ _ _ hst]; exact h
  · simp only [Bool.not_eq_true] at hst
    obtain ⟨extra, hcalls, hextra⟩ :=
      emitItem_calls_extend cb interval total cap st x hst
    have hc := (emitItem_fields cb interval total cap st x hst).2
    intro p hp
    rw [hcalls] at hp
    rcases List.mem_append.1 hp with hp | hp
    · exact ⟨by rw [hc]; exact Nat.le_succ_of_le (h p hp).1, (h p hp).2⟩
    · rw [hextra p hp, hc]
      exact ⟨Nat.le_refl _, rfl⟩

theorem emitGroup_capInv (cb : GenCallbacks) (interval total : Nat)
    (cap : Option Nat) (items : List (List Char)) (st : GenState)
    (h : CapInv cap st) :
    CapInv cap (emitGroup cb interval total cap items st) :=
  foldl_inv _ _ (fun b a hb => emitItem_capInv cb interval total cap b a hb)
    items st h

theorem emitGroup_lenInv (cb : GenCallbacks) (interval total : Nat)
    (cap : Option Nat) (items : List (List Char)) (st : GenState)
    (h : LenInv st) :
    LenInv (emitGroup cb interval total cap items st) :=
  foldl_inv _ _ (fun b a hb => emitItem_lenInv cb interval total cap b a hb)
    items st h

theorem emitGroup_callsInv (cb : GenCallbacks) (interval total : Nat)
    (cap : Option Nat) (items : List (List Char)) (st : GenState)
    (h : CallsInv total st) :
    CallsInv total (emitGroup cb interval total cap items st) :=
  foldl_inv _ _ (fun b a hb => emitItem_callsInv cb interval total cap b a hb)
    items st h

/-- Everything a single length iteration appends: a sublist of the
length's groups, all of the iteration's length, counted exactly. -/
theorem emitGroup_extend (cb : GenCallbacks) (interval total : Nat)
    (cap : Option Nat) (items : List (List Char)) (st : GenState) :
    ∃ new, (emitGroup cb interval total cap items st).passwords
        = st.passwords ++ new ∧
      new.length ≤ items.length ∧ (∀ pw ∈ new, pw ∈ items) ∧
      (emitGroup cb interval total cap items st).count
        = st.count + new.length := by
  obtain ⟨k, hk, hpw, hc⟩ := emitGroup_take cb interval total cap items st
  refine ⟨items.take k, hpw, ?_, ?_, ?_⟩
  · rw [List.length_take]; omega
  · intro pw hpw'; exact List.take_subset k items hpw'
  · rw [List.length_take]
    have : min k items.length = k := by omega
    rw [this]; exact hc

/-! ### Per-length and whole-run invariants -/

theorem genLength_pres (g : PasswordGenerator) (cb : GenCallbacks)
    (interval total : Nat) (P : GenState → Prop)
    (hP : ∀ items st, P st →
      P (emitGroup cb interval total g.MAX_PASSWORDS items st)) :
    ∀ st L, P st → P (genLength g cb interval total st L) := by
  intro st L h
  simp only [genLength]
  split_ifs <;>
    first
      | exact h
      | exact hP _ _ h
      | exact hP _ _ (hP _ _ h)
      | exact hP _ _ (hP _ _ (hP _ _ h))

theorem capInv_congr (cap : Option Nat) (st st' : GenState)
    (h : CapInv cap st) (hc : st'.count = st.count)
    (hs : st'.stopped = st.stopped) : CapInv cap st' := by
  cases cap with
  | none => trivial
  | some b => exact ⟨hc ▸ h.1, fun hf => hc ▸ h.2 (hs ▸ hf)⟩

/-- Invariants of the full `generate_passwords` run: the produced list is
exactly `count` long, the finite cap is never exceeded, and every
progress-callback invocation carried a current count and the estimate. -/
theorem generate_passwords_inv (g : PasswordGenerator) (cb : GenCallbacks) :
    LenInv (g.generate_passwords cb)
    ∧ CapInv g.MAX_PASSWORDS (g.generate_passwords cb)
    ∧ CallsInv g.estimate_count (g.generate_passwords cb) := by
  set T := g.estimate_count with hT
  set iv := max 1 (min 10000 (T / 100)) with hiv
  set st0 : GenState := ⟨[], 0, [(0, T)], false⟩ with hst0
  set stF := (g.lengthRange).foldl (genLength g cb iv T) st0 with hstF
  have hgen : g.generate_passwords cb =
      if stF.stopped then stF
      else { stF with progress_calls := stF.progress_calls ++ [(stF.count, T)] } :=
    rfl
  have h0len : LenInv st0 := rfl
  have h0cap : CapInv g.MAX_PASSWORDS st0 := by
    by_cases hnl : g.no_limit = true <;>
      simp only [PasswordGenerator.MAX_PASSWORDS, hnl, Bool.false_eq_true,
        if_true, if_false]
    · trivial
    · exact ⟨by norm_num, fun _ => by norm_num⟩
  have h0calls : CallsInv T st0 := by
    intro p hp
    simp only [hst0, List.mem_singleton] at hp
    simp [hp]
  have hFlen : LenInv stF :=
    foldl_inv _ _ (genLength_pres g cb iv T LenInv
      (fun items st h => emitGroup_lenInv cb iv T _ items st h)) _ _ h0len
  have hFcap : CapInv g.MAX_PASSWORDS stF :=
    foldl_inv _ _ (genLength_pres g cb iv T (CapInv g.MAX_PASSWORDS)
      (fun items st h => emitGroup_capInv cb iv T _ items st h)) _ _ h0cap
  have hFcalls : CallsInv T stF :=
    foldl_inv _ _ (genLength_pres g cb iv T (CallsInv T)
      (fun items st h => emitGroup_callsInv cb iv T _ items st h)) _ _ h0calls
  rw [hgen]
  by_cases hs : stF.stopped = true
  · simp only [hs, if_true]
    exact ⟨hFlen, hFcap, hFcalls⟩
  · simp only [Bool.not_eq_true] at hs
    simp only [hs, Bool.false_eq_true, if_false]
    refine ⟨hFlen, capInv_congr _ _ _ hFcap rfl hs.symm, ?_⟩
    intro p hp
    simp only [List.mem_append, List.mem_singleton] at hp
    rcases hp with hp | rfl
    · exact hFcalls p hp
    · exact ⟨Nat.le_refl _, rfl⟩

/-- The character set really has the size `estimate_count` ascribes to it. -/
theorem activeChars_length (g : PasswordGenerator) :
    g.activeChars.length = g.char_count := by
  rcases g with ⟨mn, mx, l, u, d, s, n⟩
  cases l <;> cases u <;> cases d <;> cases s <;> rfl

theorem char_count_le_70 (g : PasswordGenerator) : g.char_count ≤ 70 := by
  rcases g with ⟨mn, mx, l, u, d, s, n⟩
  cases l <;> cases u <;> cases d <;> cases s <;>
    simp [PasswordGenerator.char_count]

theorem char_count_lower (g : PasswordGenerator)
    (h : g.use_lowercase = true) : 26 ≤ g.char_count := by
  rcases g with ⟨mn, mx, l, u, d, s, n⟩
  cases l <;> cases u <;> cases d <;> cases s <;>
    simp_all [PasswordGenerator.char_count]

theorem char_count_digits (g : PasswordGenerator)
    (h : g.use_digits = true) : 10 ≤ g.char_count := by
  rcases g with ⟨mn, mx, l, u, d, s, n⟩
  cases l <;> cases u <;> cases d <;> cases s <;>
    simp_all [PasswordGenerator.char_count]

theorem char_count_both (g : PasswordGenerator)
    (hl : g.use_lowercase = true) (hd : g.use_digits = true) :
    36 ≤ g.char_count := by
  rcases g with ⟨mn, mx, l, u, d, s, n⟩
  cases l <;> cases u <;> cases d <;> cases s <;>
    simp_all [PasswordGenerator.char_count]

/-- Claim C1: with `no_limit = False`, the estimate is capped at one
million and the returned list never has more than one million entries,
whatever the callbacks do. -/
theorem claim_C1 (g : PasswordGenerator) (cb : GenCallbacks)
    (hnl : g.no_limit = false)
    (_hmin : 1 ≤ g.min_length) (_hminmax : g.min_length ≤ g.max_length) :
    g.estimate_count ≤ 1000000
    ∧ (g.generate_passwords cb).passwords.length ≤ 1000000 := by
  constructor
  · simp only [PasswordGenerator.estimate_count, hnl, Bool.false_eq_true,
      if_false]
    exact Nat.min_le_right _ _
  · obtain ⟨hlen, hcap, _⟩ := generate_passwords_inv g cb
    have hmp : g.MAX_PASSWORDS = some 1000000 := by
      simp [PasswordGenerator.MAX_PASSWORDS, hnl]
    rw [hmp] at hcap
    rw [hlen]
    exact hcap.1

/-- Concrete instantiation of `claim_C1`. -/
theorem claim_C1_witness :
    (({ min_length := 1, max_length := 2 } : PasswordGenerator).no_limit
        = false)
    ∧ 1 ≤ ({ min_length := 1, max_length := 2 } : PasswordGenerator).min_length
    ∧ ({ min_length := 1, max_length := 2 } : PasswordGenerator).min_length
        ≤ ({ min_length := 1, max_length := 2 } : PasswordGenerator).max_length
    ∧ (({ min_length := 1, max_length := 2 } : PasswordGenerator).estimate_count
        ≤ 1000000
      ∧ (({ min_length := 1, max_length := 2 } :
          PasswordGenerator).generate_passwords cbTrue).passwords.length
        ≤ 1000000) :=
  ⟨rfl, by decide, by decide,
    claim_C1 { min_length := 1, max_length := 2 } cbTrue rfl (by decide)
      (by decide)⟩

/-! ### The estimate formula (claim C7) -/

theorem foldl_add_eq_sum (f : Nat → Nat) (l : List Nat) :
    ∀ c : Nat, l.foldl (fun acc L => acc + f L) c = c + (l.map f).sum := by
  induction l with
  | nil => intro c; simp
  | cons x xs ih =>
    intro c
    simp [List.foldl_cons, ih, Nat.add_assoc]

theorem sum_Icc_eq_range'_sum (f : Nat → Nat) (a b : Nat) :
    ∑ i in Finset.Icc a b, f i = ((List.range' a (b + 1 - a)).map f).sum := by
  rw [Nat.Icc_eq_range']
  rfl

theorem rawTotal_eq_sum (g : PasswordGenerator) :
    g.rawTotal = ∑ L in Finset.Icc g.min_length g.max_length,
      g.char_count ^ L := by
  unfold PasswordGenerator.rawTotal PasswordGenerator.lengthRange
  rw [foldl_add_eq_sum (fun L => g.char_count ^ L), Nat.zero_add,
    sum_Icc_eq_range'_sum (fun L => g.char_count ^ L)]

/-- Claim C7: `estimate_count` is the pure closed form
`min (Σ_L n^L) 1,000,000` (the plain sum when unlimited), with `n` the
summed size of the selected classes, defaulting to 26, which is exactly
the size of the charset actually enumerated; on
`minLength=1, maxLength=2, lowercase+digits` it returns 1332. -/
theorem claim_C7 :
    (∀ g : PasswordGenerator,
      g.estimate_count =
        if g.no_limit then
          ∑ L in Finset.Icc g.min_length g.max_length, g.char_count ^ L
        else
          min (∑ L in Finset.Icc g.min_length g.max_length, g.char_count ^ L)
            1000000)
    ∧ (∀ g : PasswordGenerator, g.activeChars.length = g.char_count)
    ∧ ({ min_length := 1, max_length := 2 } :
        PasswordGenerator).estimate_count = 1332 := by
  refine ⟨?_, activeChars_length, by decide⟩
  intro g
  rw [PasswordGenerator.estimate_count, rawTotal_eq_sum]

/-! ### Memory classification (claim C2) -/

/-- Claim C2 counterexample: with a 1000 MB ceiling, a sample of exactly
800 MB — exactly 80% — does not satisfy the warning condition of either
phase, because both comparisons are strict (`>`), so no `memory_warning`
is emitted and the sample is treated as normal. -/
theorem claim_C2_counterexample :
    generationWarns 800 1000 = false ∧ searchWarns 800 1000 = false := by
  constructor <;> norm_num [generationWarns, searchWarns]

/-- Claim C2 amended: in both phases the `memory_warning` condition
holds exactly for samples strictly above 80% of the ceiling; a sample
exactly equal to 80% of the ceiling is classified as normal (no warning
emitted). -/
theorem claim_C2_amended (limit m : ℚ) :
    (generationWarns m limit = true ↔ limit * (8 / 10) < m)
    ∧ (searchWarns m limit = true ↔ limit * (8 / 10) < m)
    ∧ generationWarns (limit * (8 / 10)) limit = false
    ∧ searchWarns (limit * (8 / 10)) limit = false := by
  refine ⟨?_, ?_, ?_, ?_⟩ <;> simp [generationWarns, searchWarns]

/-! ### Batch-loop lemmas for the search worker -/

theorem getD_mem (l : List Pw) (i : Nat) (h : i < l.length) :
    l.getD i [] ∈ l := by
  rw [List.getD_eq_getElem?_getD, List.getElem?_eq_getElem h, Option.getD_some]
  exact List.getElem_mem h

theorem procBatch_none (tryPw : Pw → Bool) (l : List Pw) :
    ∀ (n i : Nat), (∀ m, i ≤ m → m < i + n → tryPw (l.getD m []) = false) →
    (procBatch tryPw l i n).1 = List.range' i n ∧
    (procBatch tryPw l i n).2.2 = none := by
  intro n
  induction n with
  | zero => intro i _; exact ⟨by simp [procBatch], by simp [procBatch]⟩
  | succ n ih =>
    intro i h
    have hi : tryPw (l.getD i []) = false := h i (Nat.le_refl i) (by omega)
    have ih' := ih (i + 1) (fun m hm1 hm2 => h m (by omega) (by omega))
    constructor
    · show (procBatch tryPw l i (n + 1)).1 = List.range' i (n + 1)
      simp only [procBatch, hi, Bool.false_eq_true, if_false]
      show i :: (procBatch tryPw l (i + 1) n).1 = List.range' i (n + 1)
      rw [ih'.1, List.range'_succ]
    · show (procBatch tryPw l i (n + 1)).2.2 = none
      simp only [procBatch, hi, Bool.false_eq_true, if_false]
      exact ih'.2

theorem procBatch_found (tryPw : Pw → Bool) (l : List Pw) :
    ∀ (n i j : Nat), i ≤ j → j < i + n →
    (∀ m, i ≤ m → m < j → tryPw (l.getD m []) = false) →
    tryPw (l.getD j []) = true →
    (procBatch tryPw l i n).1 = List.range' i (j + 1 - i) ∧
    (procBatch tryPw l i n).2.2 = some (l.getD j []) := by
  intro n
  induction n with
  | zero => intro i j h1 h2 _ _; omega
  | succ n ih =>
    intro i j h1 h2 hfail hsucc
    by_cases hij : i = j
    · subst hij
      constructor
      · show (procBatch tryPw l i (n + 1)).1 = List.range' i (i + 1 - i)
        simp only [procBatch, hsucc, if_true]
        have h3 : i + 1 - i = 1 := by omega
        rw [h3, List.range'_one]
      · show (procBatch tryPw l i (n + 1)).2.2 = some (l.getD i [])
        simp only [procBatch, hsucc, if_true]
    · have hij' : i < j := by omega
      have hi : tryPw (l.getD i []) = false := hfail i (Nat.le_refl i) hij'
      have ih' := ih (i + 1) j (by omega) (by omega)
        (fun m hm1 hm2 => hfail m (by omega) hm2) hsucc
      constructor
      · show (procBatch tryPw l i (n + 1)).1 = List.range' i (j + 1 - i)
        simp only [procBatch, hi, Bool.false_eq_true, if_false]
        show i :: (procBatch tryPw l (i + 1) n).1 = List.range' i (j + 1 - i)
        rw [ih'.1]
        have h3 : j + 1 - i = (j + 1 - (i + 1)) + 1 := by omega
        rw [h3, List.range'_succ]
      · show (procBatch tryPw l i (n + 1)).2.2 = some (l.getD j [])
        simp only [procBatch, hi, Bool.false_eq_true, if_false]
        exact ih'.2

theorem procBatch_shape (tryPw : Pw → Bool) (l : List Pw) :
    ∀ (n i : Nat), ∃ k, k ≤ n ∧
      (procBatch tryPw l i n).1 = List.range' i k ∧
      ∀ pw, (procBatch tryPw l i n).2.2 = some pw →
        tryPw pw = true ∧ (i + n ≤ l.length → pw ∈ l) := by
  intro n
  induction n with
  | zero =>
    intro i
    exact ⟨0, Nat.le_refl 0, by simp [procBatch], by simp [procBatch]⟩
  | succ n ih =>
    intro i
    by_cases hi : tryPw (l.getD i []) = true
    · refine ⟨1, by omega, ?_, ?_⟩
      · show (procBatch tryPw l i (n + 1)).1 = List.range' i 1
        simp only [procBatch, hi, if_true]
        rw [List.range'_one]
      · intro pw hpw
        have hpw' : some (l.getD i []) = some pw := by
          rw [← hpw]
          show some (l.getD i []) = (procBatch tryPw l i (n + 1)).2.2
          simp only [procBatch, hi, if_true]
        have : pw = l.getD i [] := by injection hpw'.symm
        subst this
        exact ⟨hi, fun hlen => getD_mem l i (by omega)⟩
    · simp only [Bool.not_eq_true] at hi
      obtain ⟨k, hk, htst, hfnd⟩ := ih (i + 1)
      refine ⟨k + 1, by omega, ?_, ?_⟩
      · show (procBatch tryPw l i (n + 1)).1 = List.range' i (k + 1)
        simp only [procBatch, hi, Bool.false_eq_true, if_false]
        show i :: (procBatch tryPw l (i + 1) n).1 = List.range' i (k + 1)
        rw [htst, List.range'_succ]
      · intro pw hpw
        have hpw' : (procBatch tryPw l (i + 1) n).2.2 = some pw := by
          rw [← hpw]
          show (procBatch tryPw l (i + 1) n).2.2
            = (procBatch tryPw l i (n + 1)).2.2
          simp only [procBatch, hi, Bool.false_eq_true, if_false]
        obtain ⟨h1, h2⟩ := hfnd pw hpw'
        exact ⟨h1, fun hlen => h2 (by omega)⟩

/-! ### Whole-loop lemmas for the search worker -/

theorem runLoop_notFound (tryPw : Pw → Bool) (l : List Pw) :
    ∀ (fuel t i : Nat) (pg : Bool), i ≤ l.length → l.length - i < fuel →
    (∀ m, i ≤ m → m < l.length → tryPw (l.getD m []) = false) →
    (runLoopFuel tryPw l cancelNever fuel t i pg).tested
        = List.range' i (l.length - i) ∧
    (runLoopFuel tryPw l cancelNever fuel t i pg).outcome
        = Outcome.notFound := by
  intro fuel
  induction fuel with
  | zero => intro t i pg h1 h2 _; omega
  | succ fuel ih =>
    intro t i pg hle hfuel hfail
    by_cases hi : i < l.length
    · set e := min (i + 100) l.length with he
      have hei : i < e := by rw [he]; exact Nat.lt_min.2 ⟨by omega, hi⟩
      have hele : e ≤ l.length := by rw [he]; exact Nat.min_le_right _ _
      have hb := procBatch_none tryPw l (e - i) i
        (fun m hm1 hm2 => hfail m hm1 (by omega))
      have hrec := ih (t + 1) e false hele (by omega)
        (fun m hm1 hm2 => hfail m (by omega) hm2)
      simp only [runLoopFuel, hi, if_true, cancelNever, Bool.false_eq_true,
        and_false, if_false, ← he]
      rw [hb.2]
      constructor
      · simp only []
        rw [hb.1, hrec.1]
        have h1 : i + (e - i) = e := by omega
        have h2 : l.length - e + (e - i) = l.length - i := by omega
        have hsplit := List.range'_append_1 i (e - i) (l.length - e)
        rw [h1, h2] at hsplit
        exact hsplit
      · exact hrec.2
    · have hlen : l.length - i = 0 := by omega
      simp only [runLoopFuel, hi, if_false, hlen, List.range'_zero]
      exact ⟨trivial, trivial⟩

theorem runLoop_found (tryPw : Pw → Bool) (l : List Pw) :
    ∀ (fuel t i : Nat) (pg : Bool) (j : Nat), i ≤ j → j < l.length →
    l.length - i < fuel →
    (∀ m, i ≤ m → m < j → tryPw (l.getD m []) = false) →
    tryPw (l.getD j []) = true →
    (runLoopFuel tryPw l cancelNever fuel t i pg).tested
        = List.range' i (j + 1 - i) ∧
    (runLoopFuel tryPw l cancelNever fuel t i pg).outcome
        = Outcome.found (l.getD j []) ∧
    ∃ es, (runLoopFuel tryPw l cancelNever fuel t i pg).events
        = es ++ [SEvent.foundEv (l.getD j [])] := by
  intro fuel
  induction fuel with
  | zero => intro t i pg j h1 h2 h3 _ _; omega
  | succ fuel ih =>
    intro t i pg j hij hjlen hfuel hfail hsucc
    have hi : i < l.length := by omega
    set e := min (i + 100) l.length with he
    have hei : i < e := by rw [he]; exact Nat.lt_min.2 ⟨by omega, hi⟩
    have hele : e ≤ l.length := by rw [he]; exact Nat.min_le_right _ _
    by_cases hje : j < e
    · have hb := procBatch_found tryPw l (e - i) i j hij (by omega) hfail hsucc
      simp only [runLoopFuel, hi, if_true, cancelNever, Bool.false_eq_true,
        and_false, if_false, ← he]
      rw [hb.2]
      refine ⟨?_, ?_, ⟨(procBatch tryPw l i (e - i)).2.1, ?_⟩⟩
      · simp only []
        exact hb.1
      · rfl
      · rfl
    · have hb := procBatch_none tryPw l (e - i) i
        (fun m hm1 hm2 => hfail m hm1 (by omega))
      have hrec := ih (t + 1) e false j (by omega) hjlen (by omega)
        (fun m hm1 hm2 => hfail m (by omega) hm2) hsucc
      simp only [runLoopFuel, hi, if_true, cancelNever, Bool.false_eq_true,
        and_false, if_false, ← he]
      rw [hb.2]
      refine ⟨?_, ?_, ?_⟩
      · simp only []
        rw [hb.1, hrec.1]
        have h1 : i + (e - i) = e := by omega
        have h2 : j + 1 - e + (e - i) = j + 1 - i := by omega
        have hsplit := List.range'_append_1 i (e - i) (j + 1 - e)
        rw [h1, h2] at hsplit
        exact hsplit
      · exact hrec.2.1
      · obtain ⟨es, hes⟩ := hrec.2.2
        refine ⟨(procBatch tryPw l i (e - i)).2.1
          ++ [SEvent.progress (e * 100 / l.length)] ++ es, ?_⟩
        simp only []
        rw [hes]
        simp [List.append_assoc]

theorem progressBar_last_found (es : List SEvent) (pw : Pw) :
    progressBarFinal (es ++ [SEvent.foundEv pw]) = 100 := by
  unfold progressBarFinal
  rw [List.foldl_append]
  rfl

theorem all_range'_false (p : Nat → Bool) (s n : Nat)
    (h : (List.range' s n).all (fun m => !p m) = true) :
    ∀ m, s ≤ m → m < s + n → p m = false := by
  intro m hm1 hm2
  have hmem : m ∈ List.range' s n := List.mem_range'_1.2 ⟨hm1, hm2⟩
  have := List.all_eq_true.1 h m hmem
  simpa using this

/-- Claim C3: when the decryption capability first succeeds at index
`j`, the worker tests exactly the candidates at indices `start..j` in
order, transitions to `found` on that candidate, and the progress bar —
driven by the emitted signals through the app's slots — finishes at
100. -/
theorem claim_C3 (tryPw : Pw → Bool) (l : List Pw) (start j : Nat)
    (hsj : start ≤ j) (hj : j < l.length)
    (hfail : (List.range' start (j - start)).all
      (fun m => !tryPw (l.getD m [])) = true)
    (hsucc : tryPw (l.getD j []) = true) :
    (PasswordRecoveryThread.run tryPw l cancelNever start).tested
        = List.range' start (j + 1 - start)
    ∧ (PasswordRecoveryThread.run tryPw l cancelNever start).outcome
        = Outcome.found (l.getD j [])
    ∧ progressBarFinal
        (PasswordRecoveryThread.run tryPw l cancelNever start).events
        = 100 := by
  have hfail' : ∀ m, start ≤ m → m < j → tryPw (l.getD m []) = false := by
    intro m hm1 hm2
    exact all_range'_false (fun m => tryPw (l.getD m [])) start (j - start)
      hfail m hm1 (by omega)
  obtain ⟨h1, h2, es, hes⟩ := runLoop_found tryPw l (l.length + 1) 0 start
    false j hsj hj (by omega) hfail' hsucc
  refine ⟨h1, h2, ?_⟩
  show progressBarFinal (runLoopFuel tryPw l cancelNever (l.length + 1)
    0 start false).events = 100
  rw [hes]
  exact progressBar_last_found es (l.getD j [])

/-- Concrete instantiation of `claim_C3`: candidate list
`["a", "b", "c"]`, password `"b"` at index 1, searched from index 0. -/
theorem claim_C3_witness :
    ((0 : Nat) ≤ 1 ∧ (1 : Nat) < ([['a'], ['b'], ['c']] : List Pw).length
      ∧ (List.range' 0 (1 - 0)).all
          (fun m => !(([['a'], ['b'], ['c']] : List Pw).getD m [] == ['b']))
          = true
      ∧ ((([['a'], ['b'], ['c']] : List Pw).getD 1 []) == ['b']) = true)
    ∧ ((PasswordRecoveryThread.run (fun pw => pw == ['b'])
          [['a'], ['b'], ['c']] cancelNever 0).tested = List.range' 0 (1 + 1 - 0)
      ∧ (PasswordRecoveryThread.run (fun pw => pw == ['b'])
          [['a'], ['b'], ['c']] cancelNever 0).outcome
          = Outcome.found (([['a'], ['b'], ['c']] : List Pw).getD 1 [])
      ∧ progressBarFinal (PasswordRecoveryThread.run (fun pw => pw == ['b'])
          [['a'], ['b'], ['c']] cancelNever 0).events = 100) :=
  ⟨⟨by decide, by decide, by decide, by decide⟩,
    claim_C3 (fun pw => pw == ['b']) [['a'], ['b'], ['c']] 0 1
      (by decide) (by decide) (by decide) (by decide)⟩

/-- Claim C4: a search loop entered at cursor `k` (the state of the
worker after a pause at `cursor = k` is resumed: `check_paused` blocks
without touching the loop state) tests exactly the candidates at
indices `[k, total)`, each exactly once, in input order, and exhausts
with `not-found` when none succeeds. -/
theorem claim_C4 (tryPw : Pw → Bool) (l : List Pw) (k : Nat)
    (hk : k ≤ l.length)
    (hfail : (List.range' k (l.length - k)).all
      (fun m => !tryPw (l.getD m [])) = true) :
    (PasswordRecoveryThread.run tryPw l cancelNever k).tested
        = List.range' k (l.length - k)
    ∧ (PasswordRecoveryThread.run tryPw l cancelNever k).tested.Nodup
    ∧ (∀ m, m ∈ (PasswordRecoveryThread.run tryPw l cancelNever k).tested
        ↔ (k ≤ m ∧ m < l.length))
    ∧ (PasswordRecoveryThread.run tryPw l cancelNever k).outcome
        = Outcome.notFound := by
  have hfail' : ∀ m, k ≤ m → m < l.length → tryPw (l.getD m []) = false := by
    intro m hm1 hm2
    exact all_range'_false (fun m => tryPw (l.getD m [])) k (l.length - k)
      hfail m hm1 (by omega)
  obtain ⟨h1, h2⟩ := runLoop_notFound tryPw l (l.length + 1) 0 k false hk
    (by omega) hfail'
  refine ⟨h1, ?_, ?_, h2⟩
  · show (runLoopFuel tryPw l cancelNever (l.length + 1) 0 k false).tested.Nodup
    rw [h1]
    exact List.nodup_range' _ _
  · intro m
    show m ∈ (runLoopFuel tryPw l cancelNever (l.length + 1) 0 k false).tested
      ↔ (k ≤ m ∧ m < l.length)
    rw [h1, List.mem_range'_1]
    omega

/-- Concrete instantiation of `claim_C4`: resume from cursor 1 over a
three-candidate list on which every attempt fails. -/
theorem claim_C4_witness :
    ((1 : Nat) ≤ ([['a'], ['b'], ['c']] : List Pw).length
      ∧ (List.range' 1 (([['a'], ['b'], ['c']] : List Pw).length - 1)).all
          (fun m => !((fun _ => false) (([['a'], ['b'], ['c']] : List Pw).getD m [])))
          = true)
    ∧ ((PasswordRecoveryThread.run (fun _ => false)
          [['a'], ['b'], ['c']] cancelNever 1).tested
        = List.range' 1 (([['a'], ['b'], ['c']] : List Pw).length - 1)
      ∧ (PasswordRecoveryThread.run (fun _ => false)
          [['a'], ['b'], ['c']] cancelNever 1).tested.Nodup
      ∧ (∀ m, m ∈ (PasswordRecoveryThread.run (fun _ => false)
          [['a'], ['b'], ['c']] cancelNever 1).tested
          ↔ (1 ≤ m ∧ m < ([['a'], ['b'], ['c']] : List Pw).length))
      ∧ (PasswordRecoveryThread.run (fun _ => false)
          [['a'], ['b'], ['c']] cancelNever 1).outcome = Outcome.notFound) :=
  ⟨⟨by decide, by decide⟩,
    claim_C4 (fun _ => false) [['a'], ['b'], ['c']] 1 (by decide) (by decide)⟩

/-- Claim C8: `try_password` is a total Boolean function — it returns
`True` for an unencrypted document or a decrypting password, `False`
for a wrong password and for any exception raised while opening or
decrypting — and therefore a run in which every attempt raises still
scans the entire candidate list and ends in `not-found` instead of
aborting. -/
theorem claim_C8 (env : PdfEnv) (l : List Pw)
    (hopen : env.openDoc = Except.ok ())
    (henc : env.is_encrypted = true)
    (herr : l.all (fun pw =>
      match env.decrypt pw with
      | Except.error _ => true
      | Except.ok _ => false) = true) :
    (∀ env2 : PdfEnv, ∀ pw : Pw, env2.openDoc = Except.ok () →
      env2.is_encrypted = false → try_password env2 pw = true)
    ∧ (∀ env2 : PdfEnv, ∀ pw : Pw, env2.openDoc = Except.ok () →
      env2.is_encrypted = true → env2.decrypt pw = Except.ok true →
      try_password env2 pw = true)
    ∧ (∀ env2 : PdfEnv, ∀ pw : Pw, env2.openDoc = Except.ok () →
      env2.is_encrypted = true → env2.decrypt pw = Except.ok false →
      try_password env2 pw = false)
    ∧ (∀ env2 : PdfEnv, ∀ pw : Pw, ∀ msg : String,
      env2.openDoc = Except.error msg → try_password env2 pw = false)
    ∧ (∀ env2 : PdfEnv, ∀ pw : Pw, ∀ msg : String,
      env2.openDoc = Except.ok () → env2.is_encrypted = true →
      env2.decrypt pw = Except.error msg → try_password env2 pw = false)
    ∧ (PasswordRecoveryThread.run (try_password env) l cancelNever 0).outcome
        = Outcome.notFound
    ∧ (PasswordRecoveryThread.run (try_password env) l cancelNever 0).tested
        = List.range' 0 l.length := by
  have hfails : ∀ m, 0 ≤ m → m < l.length →
      try_password env (l.getD m []) = false := by
    intro m _ hm
    have hmem : l.getD m [] ∈ l := getD_mem l m hm
    have hd := List.all_eq_true.1 herr _ hmem
    unfold try_password
    rw [hopen, henc]
    cases hdec : env.decrypt (l.getD m []) with
    | ok b => rw [hdec] at hd; simp at hd
    | error msg => simp
  obtain ⟨h1, h2⟩ := runLoop_notFound (try_password env) l (l.length + 1) 0 0
    false (Nat.zero_le _) (by omega) hfails
  refine ⟨?_, ?_, ?_, ?_, ?_, h2, ?_⟩
  · intro env2 pw ho he
    unfold try_password
    rw [ho, he]
    simp
  · intro env2 pw ho he hd
    unfold try_password
    rw [ho, he, hd]
    simp
  · intro env2 pw ho he hd
    unfold try_password
    rw [ho, he, hd]
    simp
  · intro env2 pw msg ho
    unfold try_password
    rw [ho]
  · intro env2 pw msg ho he hd
    unfold try_password
    rw [ho, he, hd]
    simp
  · show (runLoopFuel (try_password env) l cancelNever (l.length + 1)
      0 0 false).tested = List.range' 0 l.length
    rw [h1, Nat.sub_zero]

/-- Concrete instantiation of `claim_C8`: an encrypted document whose
decryption raises on every candidate; the two-candidate search scans
both and reports not-found. -/
theorem claim_C8_witness :
    (ioErrEnv.openDoc = Except.ok ()
      ∧ ioErrEnv.is_encrypted = true
      ∧ ([['a'], ['b']] : List Pw).all (fun pw =>
          match ioErrEnv.decrypt pw with
          | Except.error _ => true
          | Except.ok _ => false) = true)
    ∧ ((PasswordRecoveryThread.run (try_password ioErrEnv)
        [['a'], ['b']] cancelNever 0).outcome = Outcome.notFound
      ∧ (PasswordRecoveryThread.run (try_password ioErrEnv)
        [['a'], ['b']] cancelNever 0).tested
        = List.range' 0 ([['a'], ['b']] : List Pw).length) :=
  ⟨⟨rfl, rfl, rfl⟩,
    (claim_C8 ioErrEnv [['a'], ['b']] rfl rfl rfl).2.2.2.2.2⟩

/-- Once `cancelled` is observed `true` at the top of the loop, the next
iteration returns immediately (or reports not-found if the list is
already exhausted). -/
theorem runLoop_cancelled_now (tryPw : Pw → Bool) (l : List Pw)
    (fuel t i : Nat) (hfuel : 0 < fuel) :
    runLoopFuel tryPw l (fun _ => true) fuel t i false =
      if i < l.length then ⟨[], [], Outcome.cancelled⟩
      else ⟨[], [SEvent.notFoundEv], Outcome.notFound⟩ := by
  cases fuel with
  | zero => omega
  | succ fuel => by_cases hi : i < l.length <;> simp [runLoopFuel, hi]

/-- Claim C9 counterexample: the worker is blocked at the pause gate at
position 0 over the one-candidate list `["a"]` whose password is
correct; `cancel()` wakes it, but it terminates with `password_found`
— not in the cancelled state — because it still processes one batch of
candidates after waking. -/
theorem claim_C9_counterexample :
    (PasswordRecoveryThread.runAfterCancelFromGate (fun pw => pw == ['a'])
        [['a']] 0).outcome = Outcome.found ['a']
    ∧ ¬((PasswordRecoveryThread.runAfterCancelFromGate (fun pw => pw == ['a'])
        [['a']] 0).outcome = Outcome.cancelled) := by
  constructor <;> decide

/-- Claim C9 amended: `cancel()` while the worker is blocked at the
pause gate at position `i` always wakes it and the worker terminates
within a bounded number of its own steps — after processing at most one
more batch of at most 100 candidates.  It ends in the cancelled state
provided no candidate of that one batch decrypts; if the batch exhausts
the list it ends in not-found, and if a candidate of the batch succeeds
it ends in found. -/
theorem claim_C9_amended (tryPw : Pw → Bool) (l : List Pw) (i : Nat)
    (hi : i < l.length) :
    (∃ k, k ≤ min (i + 100) l.length - i ∧
      (PasswordRecoveryThread.runAfterCancelFromGate tryPw l i).tested
        = List.range' i k)
    ∧ ((List.range' i (min (i + 100) l.length - i)).all
        (fun m => !tryPw (l.getD m [])) = true →
      (PasswordRecoveryThread.runAfterCancelFromGate tryPw l i).outcome
        = if min (i + 100) l.length < l.length then Outcome.cancelled
          else Outcome.notFound)
    ∧ (∀ pw, (PasswordRecoveryThread.runAfterCancelFromGate tryPw l i).outcome
        = Outcome.found pw → tryPw pw = true ∧ pw ∈ l) := by
  have hlen : 0 < l.length := by omega
  have hele : min (i + 100) l.length ≤ l.length := Nat.min_le_right _ _
  have hrun : PasswordRecoveryThread.runAfterCancelFromGate tryPw l i =
      match (procBatch tryPw l i (min (i + 100) l.length - i)).2.2 with
      | some pw =>
          ⟨(procBatch tryPw l i (min (i + 100) l.length - i)).1,
           (procBatch tryPw l i (min (i + 100) l.length - i)).2.1
             ++ [SEvent.foundEv pw],
           Outcome.found pw⟩
      | none =>
          ⟨(procBatch tryPw l i (min (i + 100) l.length - i)).1
             ++ (runLoopFuel tryPw l (fun _ => true) l.length 1
                  (min (i + 100) l.length) false).tested,
           (procBatch tryPw l i (min (i + 100) l.length - i)).2.1
             ++ [SEvent.progress (min (i + 100) l.length * 100 / l.length)]
             ++ (runLoopFuel tryPw l (fun _ => true) l.length 1
                  (min (i + 100) l.length) false).events,
           (runLoopFuel tryPw l (fun _ => true) l.length 1
              (min (i + 100) l.length) false).outcome⟩ := by
    show runLoopFuel tryPw l (fun _ => true) (l.length + 1) 0 i true = _
    simp only [runLoopFuel, hi, if_true, Bool.true_eq_false, false_and,
      if_false]
  obtain ⟨k, hk, htst, hfnd⟩ := procBatch_shape tryPw l
    (min (i + 100) l.length - i) i
  have hrec := runLoop_cancelled_now tryPw l l.length 1
    (min (i + 100) l.length) hlen
  cases hfound : (procBatch tryPw l i (min (i + 100) l.length - i)).2.2 with
  | some pw =>
    have hsome : PasswordRecoveryThread.runAfterCancelFromGate tryPw l i =
        ⟨(procBatch tryPw l i (min (i + 100) l.length - i)).1,
         (procBatch tryPw l i (min (i + 100) l.length - i)).2.1
           ++ [SEvent.foundEv pw],
         Outcome.found pw⟩ := by
      rw [hrun, hfound]
    refine ⟨⟨k, hk, by rw [hsome]; exact htst⟩, ?_, ?_⟩
    · intro hall
      exfalso
      have hnone := (procBatch_none tryPw l (min (i + 100) l.length - i) i
        (fun m hm1 hm2 =>
          all_range'_false (fun m => tryPw (l.getD m []))
            i (min (i + 100) l.length - i) hall m hm1 hm2)).2
      rw [hfound] at hnone
      exact Option.noConfusion hnone
    · intro pw2 hpw2
      rw [hsome] at hpw2
      have hpw3 : Outcome.found pw = Outcome.found pw2 := hpw2
      have hpw4 : pw = pw2 := by injection hpw3
      subst hpw4
      obtain ⟨ht, hm⟩ := hfnd pw hfound
      exact ⟨ht, hm (by omega)⟩
  | none =>
    have hnone2 : PasswordRecoveryThread.runAfterCancelFromGate tryPw l i =
        ⟨(procBatch tryPw l i (min (i + 100) l.length - i)).1
           ++ (runLoopFuel tryPw l (fun _ => true) l.length 1
                (min (i + 100) l.length) false).tested,
         (procBatch tryPw l i (min (i + 100) l.length - i)).2.1
           ++ [SEvent.progress (min (i + 100) l.length * 100 / l.length)]
           ++ (runLoopFuel tryPw l (fun _ => true) l.length 1
                (min (i + 100) l.length) false).events,
         (runLoopFuel tryPw l (fun _ => true) l.length 1
            (min (i + 100) l.length) false).outcome⟩ := by
      rw [hrun, hfound]
    by_cases helt : min (i + 100) l.length < l.length
    · refine ⟨⟨k, hk, ?_⟩, ?_, ?_⟩
      · rw [hnone2, hrec]
        simp only [helt, if_true]
        show (procBatch tryPw l i (min (i + 100) l.length - i)).1 ++ [] = _
        rw [List.append_nil]
        exact htst
      · intro _
        rw [hnone2, hrec]
        simp only [helt, if_true]
      · intro pw hpw
        rw [hnone2, hrec] at hpw
        simp only [helt, if_true] at hpw
        exact Outcome.noConfusion hpw
    · refine ⟨⟨k, hk, ?_⟩, ?_, ?_⟩
      · rw [hnone2, hrec]
        simp only [helt, if_false]
        show (procBatch tryPw l i (min (i + 100) l.length - i)).1 ++ [] = _
        rw [List.append_nil]
        exact htst
      · intro _
        rw [hnone2, hrec]
        simp only [helt, if_false]
      · intro pw hpw
        rw [hnone2, hrec] at hpw
        simp only [helt, if_false] at hpw
        exact Outcome.noConfusion hpw

/-- Concrete instantiation of `claim_C9_amended`: cancel-from-pause at
position 0 over two always-failing candidates; the batch covers the
whole list, so the woken worker ends in not-found. -/
theorem claim_C9_amended_witness :
    ((0 : Nat) < ([['a'], ['b']] : List Pw).length)
    ∧ ((∃ k, k ≤ min (0 + 100) ([['a'], ['b']] : List Pw).length - 0 ∧
        (PasswordRecoveryThread.runAfterCancelFromGate (fun _ => false)
          [['a'], ['b']] 0).tested = List.range' 0 k)
      ∧ ((List.range' 0 (min (0 + 100) ([['a'], ['b']] : List Pw).length - 0)).all
          (fun m => !((fun _ => false) (([['a'], ['b']] : List Pw).getD m [])))
          = true →
        (PasswordRecoveryThread.runAfterCancelFromGate (fun _ => false)
          [['a'], ['b']] 0).outcome
          = if min (0 + 100) ([['a'], ['b']] : List Pw).length
              < ([['a'], ['b']] : List Pw).length then Outcome.cancelled
            else Outcome.notFound)
      ∧ (∀ pw, (PasswordRecoveryThread.runAfterCancelFromGate (fun _ => false)
          [['a'], ['b']] 0).outcome = Outcome.found pw →
          (fun _ => false : Pw → Bool) pw = true ∧ pw ∈ ([['a'], ['b']] : List Pw))) :=
  ⟨by decide, claim_C9_amended (fun _ => false) [['a'], ['b']] 0 (by decide)⟩

/-! ### Short lengths always receive the full product (claim C5) -/

/-- For `length <= 3`, both sides of the budget test emit the full
cartesian product of the active charset, so the branch is irrelevant. -/
theorem genLength_le3 (g : PasswordGenerator) (cb : GenCallbacks)
    (interval total : Nat) (st : GenState) (L : Nat) (hL : L ≤ 3) :
    genLength g cb interval total st L
      = emitGroup cb interval total g.MAX_PASSWORDS
          (pyProduct g.activeChars L) st := by
  by_cases hst : st.stopped = true
  · rw [emitGroup_of_stopped _ _ _ _ _ _ hst]
    simp [genLength, hst]
  · simp only [Bool.not_eq_true] at hst
    simp only [genLength, hst, Bool.false_eq_true, if_false, hL, if_true,
      ite_self]

/-- Processing a run of short lengths with permissive callbacks and cap
headroom emits exactly the concatenated full products. -/
theorem genLengths_all_le3 (g : PasswordGenerator) (cb : GenCallbacks)
    (interval total : Nat)
    (hp : ∀ c t, cb.progress c t = true) (hq : ∀ s, cb.pattern s = true) :
    ∀ (ls : List Nat) (st : GenState), (∀ L ∈ ls, L ≤ 3) →
    st.stopped = false →
    capLe g.MAX_PASSWORDS
      (st.count + ((ls.map (fun L => g.char_count ^ L)).sum)) = false →
    (ls.foldl (genLength g cb interval total) st).passwords
      = st.passwords ++ ls.flatMap (fun L => pyProduct g.activeChars L) ∧
    (ls.foldl (genLength g cb interval total) st).count
      = st.count + ((ls.map (fun L => g.char_count ^ L)).sum) ∧
    (ls.foldl (genLength g cb interval total) st).stopped = false := by
  intro ls
  induction ls with
  | nil => intro st _ hst _; exact ⟨by simp, by simp, by simpa using hst⟩
  | cons L ls ih =>
    intro st hle3 hst hcap
    have hL3 : L ≤ 3 := hle3 L (by simp)
    have hlen : (pyProduct g.activeChars L).length = g.char_count ^ L := by
      rw [pyProduct_length, activeChars_length]
    have hcap1 : capLe g.MAX_PASSWORDS
        (st.count + (pyProduct g.activeChars L).length) = false := by
      rw [hlen]
      refine capLe_mono _ _ _ ?_ hcap
      simp only [List.map_cons, List.sum_cons]
      omega
    have hfull := emitGroup_all cb interval total g.MAX_PASSWORDS
      (pyProduct g.activeChars L) st hst hp hq hcap1
    have hfold : (L :: ls).foldl (genLength g cb interval total) st
        = ls.foldl (genLength g cb interval total)
            (emitGroup cb interval total g.MAX_PASSWORDS
              (pyProduct g.activeChars L) st) := by
      rw [List.foldl_cons, genLength_le3 g cb interval total st L hL3]
    have hcap2 : capLe g.MAX_PASSWORDS
        ((emitGroup cb interval total g.MAX_PASSWORDS
            (pyProduct g.activeChars L) st).count
          + ((ls.map (fun L => g.char_count ^ L)).sum)) = false := by
      rw [hfull.2.1, hlen]
      have heq : st.count + g.char_count ^ L
            + (ls.map (fun L => g.char_count ^ L)).sum
          = st.count + (((L :: ls).map (fun L => g.char_count ^ L)).sum) := by
        simp only [List.map_cons, List.sum_cons]
        omega
      rw [heq]
      exact hcap
    obtain ⟨ha, hb, hc⟩ := ih _ (fun L' hm => hle3 L' (by simp [hm]))
      hfull.2.2 hcap2
    refine ⟨?_, ?_, ?_⟩
    · rw [hfold, ha, hfull.1]
      simp [List.append_assoc]
    · rw [hfold, hb, hfull.2.1, hlen]
      simp only [List.map_cons, List.sum_cons]
      omega
    · rw [hfold]
      exact hc

theorem emitGroup_filter_ne (cb : GenCallbacks) (interval total : Nat)
    (cap : Option Nat) (items : List (List Char)) (st : GenState) (Lq : Nat)
    (hitems : ∀ pw ∈ items, pw.length ≠ Lq) :
    ((emitGroup cb interval total cap items st).passwords).filter
        (fun pw => pw.length = Lq)
      = (st.passwords).filter (fun pw => pw.length = Lq) := by
  obtain ⟨new, hnew, _, hmem, _⟩ :=
    emitGroup_extend cb interval total cap items st
  rw [hnew, List.filter_append]
  have hnil : new.filter (fun pw => pw.length = Lq) = [] := by
    rw [List.filter_eq_nil_iff]
    intro pw hpw
    simp only [decide_eq_true_eq]
    exact hitems pw (hmem pw hpw)
  rw [hnil, List.append_nil]

/-- One length iteration at `L ≠ Lq` contributes nothing of length
`Lq`: every string it appends has length exactly `L`. -/
theorem genLength_filter_ne (g : PasswordGenerator) (cb : GenCallbacks)
    (interval total : Nat) (st : GenState) (L Lq : Nat) (hne : L ≠ Lq) :
    ((genLength g cb interval total st L).passwords).filter
        (fun pw => pw.length = Lq)
      = (st.passwords).filter (fun pw => pw.length = Lq) := by
  have hfull : ∀ st' : GenState,
      ((emitGroup cb interval total g.MAX_PASSWORDS
          (pyProduct g.activeChars L) st').passwords).filter
          (fun pw => pw.length = Lq)
        = (st'.passwords).filter (fun pw => pw.length = Lq) :=
    fun st' => emitGroup_filter_ne cb interval total g.MAX_PASSWORDS _ st' Lq
      (fun pw hpw => by rw [pyProduct_mem_length _ _ _ hpw]; exact hne)
  have hlow : ∀ st' : GenState,
      ((emitGroup cb interval total g.MAX_PASSWORDS
          (pyProduct ascii_lowercase L) st').passwords).filter
          (fun pw => pw.length = Lq)
        = (st'.passwords).filter (fun pw => pw.length = Lq) :=
    fun st' => emitGroup_filter_ne cb interval total g.MAX_PASSWORDS _ st' Lq
      (fun pw hpw => by rw [pyProduct_mem_length _ _ _ hpw]; exact hne)
  have hdig : ∀ st' : GenState,
      ((emitGroup cb interval total g.MAX_PASSWORDS
          (pyProduct digit_chars L) st').passwords).filter
          (fun pw => pw.length = Lq)
        = (st'.passwords).filter (fun pw => pw.length = Lq) :=
    fun st' => emitGroup_filter_ne cb interval total g.MAX_PASSWORDS _ st' Lq
      (fun pw hpw => by rw [pyProduct_mem_length _ _ _ hpw]; exact hne)
  have hmix : ∀ st' : GenState,
      ((emitGroup cb interval total g.MAX_PASSWORDS
          (mixedGroup L) st').passwords).filter
          (fun pw => pw.length = Lq)
        = (st'.passwords).filter (fun pw => pw.length = Lq) :=
    fun st' => emitGroup_filter_ne cb interval total g.MAX_PASSWORDS _ st' Lq
      (fun pw hpw => by rw [mixedGroup_mem_length _ _ hpw]; exact hne)
  by_cases hst : st.stopped = true
  · simp [genLength, hst]
  · simp only [Bool.not_eq_true] at hst
    simp only [genLength, hst, Bool.false_eq_true, if_false]
    split_ifs <;> simp only [hfull, hlow, hdig, hmix]

theorem fold_filter_ne (g : PasswordGenerator) (cb : GenCallbacks)
    (interval total : Nat) (Lq : Nat) :
    ∀ (ls : List Nat), (∀ L ∈ ls, L ≠ Lq) → ∀ st : GenState,
    ((ls.foldl (genLength g cb interval total) st).passwords).filter
        (fun pw => pw.length = Lq)
      = (st.passwords).filter (fun pw => pw.length = Lq) := by
  intro ls
  induction ls with
  | nil => intro _ st; rfl
  | cons L ls ih =>
    intro hne st
    rw [List.foldl_cons, ih (fun L' hm => hne L' (by simp [hm])),
      genLength_filter_ne g cb interval total st L Lq (hne L (by simp))]

/-- The cumulative full products of all lengths up to 3 stay far below
the one-million cap (at most 70 + 70² + 70³ = 347,970). -/
theorem sum_le3_lt (n : Nat) (hn : n ≤ 70) (mn L : Nat)
    (h1 : 1 ≤ mn) (h2 : mn ≤ L) (h3 : L ≤ 3) :
    ((List.range' mn (L + 1 - mn)).map (fun x => n ^ x)).sum < 1000000 := by
  have e1 : n ^ 1 ≤ 70 ^ 1 := Nat.pow_le_pow_left hn 1
  have e2 : n ^ 2 ≤ 70 ^ 2 := Nat.pow_le_pow_left hn 2
  have e3 : n ^ 3 ≤ 70 ^ 3 := Nat.pow_le_pow_left hn 3
  norm_num at e1 e2 e3
  interval_cases L <;> interval_cases mn <;>
    simp only [show (1 : Nat) + 1 - 1 = 1 from rfl,
      show (2 : Nat) + 1 - 1 = 2 from rfl,
      show (2 : Nat) + 1 - 2 = 1 from rfl,
      show (3 : Nat) + 1 - 1 = 3 from rfl,
      show (3 : Nat) + 1 - 2 = 2 from rfl,
      show (3 : Nat) + 1 - 3 = 1 from rfl,
      show List.range' 1 1 = [1] from rfl,
      show List.range' 1 2 = [1, 2] from rfl,
      show List.range' 2 1 = [2] from rfl,
      show List.range' 1 3 = [1, 2, 3] from rfl,
      show List.range' 2 2 = [2, 3] from rfl,
      show List.range' 3 1 = [3] from rfl,
      List.map_cons, List.map_nil, List.sum_cons, List.sum_nil, pow_one] <;>
    omega

/-- The wrap-up step of `generate_passwords` (the final progress
notification) never changes the produced list. -/
theorem generate_passwords_passwords (g : PasswordGenerator)
    (cb : GenCallbacks) :
    (g.generate_passwords cb).passwords
      = ((g.lengthRange).foldl
          (genLength g cb (max 1 (min 10000 (g.estimate_count / 100)))
            g.estimate_count)
          ⟨[], 0, [(0, g.estimate_count)], false⟩).passwords := by
  unfold PasswordGenerator.generate_passwords
  by_cases hstop : ((g.lengthRange).foldl
      (genLength g cb (max 1 (min 10000 (g.estimate_count / 100)))
        g.estimate_count)
      ⟨[], 0, [(0, g.estimate_count)], false⟩).stopped = true <;>
    simp [hstop]

/-- Claim C5: for every policy and every length `L ≤ 3` inside the
configured range, an uncancelled run emits at length `L` exactly the
full cartesian product of the active charset in odometer order,
whichever side of the budget check that length takes. -/
theorem claim_C5 (g : PasswordGenerator) (cb : GenCallbacks) (L : Nat)
    (hp : ∀ c t, cb.progress c t = true) (hq : ∀ s, cb.pattern s = true)
    (hmin1 : 1 ≤ g.min_length) (hminL : g.min_length ≤ L)
    (hLmax : L ≤ g.max_length) (hL3 : L ≤ 3) :
    ((g.generate_passwords cb).passwords).filter (fun pw => pw.length = L)
      = pyProduct g.activeChars L := by
  rw [generate_passwords_passwords]
  have hsplit : g.lengthRange
      = List.range' g.min_length (L + 1 - g.min_length)
        ++ List.range' (L + 1) (g.max_length - L) := by
    unfold PasswordGenerator.lengthRange
    have h1 := List.range'_append_1 g.min_length (L + 1 - g.min_length)
      (g.max_length - L)
    have h2 : g.min_length + (L + 1 - g.min_length) = L + 1 := by omega
    rw [h2] at h1
    have h3 : g.max_length - L + (L + 1 - g.min_length)
        = g.max_length + 1 - g.min_length := by omega
    rw [h3] at h1
    exact h1.symm
  rw [hsplit, List.foldl_append]
  have hle3 : ∀ L' ∈ List.range' g.min_length (L + 1 - g.min_length),
      L' ≤ 3 := by
    intro L' hm
    rw [List.mem_range'_1] at hm
    omega
  have hcap0 : capLe g.MAX_PASSWORDS
      (0 + (((List.range' g.min_length (L + 1 - g.min_length)).map
          (fun L' => g.char_count ^ L')).sum)) = false := by
    by_cases hnl : g.no_limit = true
    · simp [PasswordGenerator.MAX_PASSWORDS, hnl, capLe]
    · simp only [Bool.not_eq_true] at hnl
      have hb := sum_le3_lt g.char_count (char_count_le_70 g)
        g.min_length L hmin1 hminL hL3
      simp only [PasswordGenerator.MAX_PASSWORDS, hnl, Bool.false_eq_true,
        if_false, capLe, decide_eq_false_iff_not, Nat.not_le]
      omega
  obtain ⟨hP1pw, hP1cnt, hP1stop⟩ := genLengths_all_le3 g cb
    (max 1 (min 10000 (g.estimate_count / 100))) g.estimate_count hp hq
    (List.range' g.min_length (L + 1 - g.min_length))
    ⟨[], 0, [(0, g.estimate_count)], false⟩ hle3 rfl hcap0
  have hne2 : ∀ L' ∈ List.range' (L + 1) (g.max_length - L), L' ≠ L := by
    intro L' hm
    rw [List.mem_range'_1] at hm
    omega
  rw [fold_filter_ne g cb _ _ L _ hne2 _, hP1pw]
  simp only [List.nil_append]
  have hsplit2 : List.range' g.min_length (L + 1 - g.min_length)
      = List.range' g.min_length (L - g.min_length) ++ [L] := by
    have h1 := List.range'_append_1 g.min_length (L - g.min_length) 1
    have h2 : g.min_length + (L - g.min_length) = L := by omega
    rw [h2] at h1
    have h4 : (1 : Nat) + (L - g.min_length) = L + 1 - g.min_length := by
      omega
    rw [h4] at h1
    rw [← h1, List.range'_one]
  rw [hsplit2, List.flatMap_append, List.filter_append]
  have hfirst : ((List.range' g.min_length (L - g.min_length)).flatMap
      (fun L' => pyProduct g.activeChars L')).filter
      (fun pw => pw.length = L) = [] := by
    rw [List.filter_eq_nil_iff]
    intro pw hpw
    rw [List.mem_flatMap] at hpw
    obtain ⟨L', hL', hpw'⟩ := hpw
    rw [List.mem_range'_1] at hL'
    have hlenp := pyProduct_mem_length _ _ _ hpw'
    simp only [decide_eq_true_eq]
    omega
  have hsecond : (([L].flatMap (fun L' => pyProduct g.activeChars L'))).filter
      (fun pw => pw.length = L) = pyProduct g.activeChars L := by
    simp only [List.flatMap_cons, List.flatMap_nil, List.append_nil]
    rw [List.filter_eq_self]
    intro pw hpw
    simp only [decide_eq_true_eq]
    exact pyProduct_mem_length _ _ _ hpw
  rw [hfirst, hsecond, List.nil_append]

/-- Concrete instantiation of `claim_C5`: default charset flags
(lowercase and digits), lengths 1–2, at `L = 1`. -/
theorem claim_C5_witness :
    (1 ≤ ({ min_length := 1, max_length := 2 } : PasswordGenerator).min_length
      ∧ ({ min_length := 1, max_length := 2 } : PasswordGenerator).min_length ≤ 1
      ∧ 1 ≤ ({ min_length := 1, max_length := 2 } : PasswordGenerator).max_length
      ∧ (1 : Nat) ≤ 3)
    ∧ ((({ min_length := 1, max_length := 2 } :
          PasswordGenerator).generate_passwords cbTrue).passwords).filter
        (fun pw => pw.length = 1)
      = pyProduct ({ min_length := 1, max_length := 2 } :
          PasswordGenerator).activeChars 1 :=
  ⟨⟨by decide, by decide, by decide, by decide⟩,
    claim_C5 { min_length := 1, max_length := 2 } cbTrue 1
      (fun _ _ => rfl) (fun _ => rfl) (by decide) (by decide) (by decide)
      (by decide)⟩

theorem ascii_lowercase_length : ascii_lowercase.length = 26 := rfl

theorem digit_chars_length : digit_chars.length = 10 := rfl

/-- Claim C6: at a length `L > 3` where the budget check fires, the
uncancelled generator (cap not reached during this length) emits, in
this fixed order: the full lowercase product (when lowercase is
active), then the full digit product (when digits are active), then —
when both are active — every lowercase string of length `⌊L/2⌋`
concatenated with every digit string of length `L − ⌊L/2⌋`, prefix as
the outer loop, suffix as the inner loop. -/
theorem claim_C6 (g : PasswordGenerator) (cb : GenCallbacks)
    (interval total : Nat) (st : GenState) (L : Nat)
    (hp : ∀ c t, cb.progress c t = true) (hq : ∀ s, cb.pattern s = true)
    (hst : st.stopped = false) (hL : 3 < L)
    (hbranch : capLt g.MAX_PASSWORDS ((g.activeChars).length ^ L + st.count)
      = true)
    (hcap : capLe g.MAX_PASSWORDS (st.count
      + ((if g.use_lowercase then (26 : Nat) ^ L else 0)
        + (if g.use_digits then (10 : Nat) ^ L else 0)
        + (if g.use_lowercase ∧ g.use_digits then
            26 ^ (L / 2) * 10 ^ (L - L / 2) else 0))) = false) :
    (genLength g cb interval total st L).passwords
      = st.passwords
        ++ (if g.use_lowercase then pyProduct ascii_lowercase L else [])
        ++ (if g.use_digits then pyProduct digit_chars L else [])
        ++ (if g.use_lowercase ∧ g.use_digits then
            (pyProduct ascii_lowercase (L / 2)).flatMap
              (fun letters => (pyProduct digit_chars (L - L / 2)).map
                (fun ds => letters ++ ds))
            else []) := by
  have h43 : ¬(L ≤ 3) := by omega
  have h4L : 4 ≤ L := by omega
  have hlow_len : (pyProduct ascii_lowercase L).length = 26 ^ L := by
    rw [pyProduct_length, ascii_lowercase_length]
  have hdig_len : (pyProduct digit_chars L).length = 10 ^ L := by
    rw [pyProduct_length, digit_chars_length]
  simp only [genLength, hst, Bool.false_eq_true, if_false, hbranch, if_true,
    h43]
  by_cases hlc : g.use_lowercase = true <;> by_cases hdg : g.use_digits = true
  · -- lowercase and digits both active: three groups
    simp only [hlc, hdg, h4L, and_self, true_and, and_true, if_true] at hcap ⊢
    have hcap1 : capLe g.MAX_PASSWORDS
        (st.count + (pyProduct ascii_lowercase L).length) = false := by
      rw [hlow_len]
      exact capLe_mono _ _ _ (by omega) hcap
    have h1 := emitGroup_all cb interval total g.MAX_PASSWORDS
      (pyProduct ascii_lowercase L) st hst hp hq hcap1
    have hcap2 : capLe g.MAX_PASSWORDS
        ((emitGroup cb interval total g.MAX_PASSWORDS
            (pyProduct ascii_lowercase L) st).count
          + (pyProduct digit_chars L).length) = false := by
      rw [h1.2.1, hlow_len, hdig_len]
      exact capLe_mono _ _ _ (by omega) hcap
    have h2 := emitGroup_all cb interval total g.MAX_PASSWORDS
      (pyProduct digit_chars L) _ h1.2.2 hp hq hcap2
    have hcap3 : capLe g.MAX_PASSWORDS
        ((emitGroup cb interval total g.MAX_PASSWORDS (pyProduct digit_chars L)
            (emitGroup cb interval total g.MAX_PASSWORDS
              (pyProduct ascii_lowercase L) st)).count
          + (mixedGroup L).length) = false := by
      rw [h2.2.1, h1.2.1, hlow_len, hdig_len, mixedGroup_length]
      exact capLe_mono _ _ _ (by omega) hcap
    have h3 := emitGroup_all cb interval total g.MAX_PASSWORDS
      (mixedGroup L) _ h2.2.2 hp hq hcap3
    rw [h3.1, h2.1, h1.1]
    rfl
  · -- lowercase only
    simp only [hlc, hdg, Bool.false_eq_true, and_false, false_and, and_true,
      true_and, if_true, if_false, List.append_nil, Nat.add_zero] at hcap ⊢
    have hcap1 : capLe g.MAX_PASSWORDS
        (st.count + (pyProduct ascii_lowercase L).length) = false := by
      rw [hlow_len]
      exact capLe_mono _ _ _ (by omega) hcap
    have h1 := emitGroup_all cb interval total g.MAX_PASSWORDS
      (pyProduct ascii_lowercase L) st hst hp hq hcap1
    exact h1.1
  · -- digits only
    simp only [hlc, hdg, Bool.false_eq_true, and_false, false_and, and_true,
      true_and, if_true, if_false, List.append_nil, Nat.add_zero,
      Nat.zero_add] at hcap ⊢
    have hcap1 : capLe g.MAX_PASSWORDS
        (st.count + (pyProduct digit_chars L).length) = false := by
      rw [hdig_len]
      exact capLe_mono _ _ _ (by omega) hcap
    have h1 := emitGroup_all cb interval total g.MAX_PASSWORDS
      (pyProduct digit_chars L) st hst hp hq hcap1
    exact h1.1
  · -- neither active
    simp only [hlc, hdg, Bool.false_eq_true, and_false, false_and, if_false,
      List.append_nil]

/-- Concrete instantiation of `claim_C6`: lowercase+digits policy at
length 4, where 36⁴ > 1,000,000 triggers the fallback and the fallback
itself (26⁴ + 10⁴ + 26²·10² = 534,576) fits under the cap. -/
theorem claim_C6_witness :
    ((⟨[], 0, [], false⟩ : GenState).stopped = false
      ∧ (3 : Nat) < 4
      ∧ capLt ({ min_length := 4, max_length := 4 } :
            PasswordGenerator).MAX_PASSWORDS
          ((({ min_length := 4, max_length := 4 } :
            PasswordGenerator).activeChars).length ^ 4
            + (⟨[], 0, [], false⟩ : GenState).count) = true
      ∧ capLe ({ min_length := 4, max_length := 4 } :
            PasswordGenerator).MAX_PASSWORDS
          ((⟨[], 0, [], false⟩ : GenState).count
            + ((if ({ min_length := 4, max_length := 4 } :
                  PasswordGenerator).use_lowercase then (26 : Nat) ^ 4 else 0)
              + (if ({ min_length := 4, max_length := 4 } :
                  PasswordGenerator).use_digits then (10 : Nat) ^ 4 else 0)
              + (if ({ min_length := 4, max_length := 4 } :
                    PasswordGenerator).use_lowercase
                  ∧ ({ min_length := 4, max_length := 4 } :
                    PasswordGenerator).use_digits then
                  26 ^ (4 / 2) * 10 ^ (4 - 4 / 2) else 0))) = false)
    ∧ (genLength { min_length := 4, max_length := 4 } cbTrue 1 0
        ⟨[], 0, [], false⟩ 4).passwords
      = (⟨[], 0, [], false⟩ : GenState).passwords
        ++ (if ({ min_length := 4, max_length := 4 } :
            PasswordGenerator).use_lowercase then
            pyProduct ascii_lowercase 4 else [])
        ++ (if ({ min_length := 4, max_length := 4 } :
            PasswordGenerator).use_digits then
            pyProduct digit_chars 4 else [])
        ++ (if ({ min_length := 4, max_length := 4 } :
              PasswordGenerator).use_lowercase
            ∧ ({ min_length := 4, max_length := 4 } :
              PasswordGenerator).use_digits then
            (pyProduct ascii_lowercase (4 / 2)).flatMap
              (fun letters => (pyProduct digit_chars (4 - 4 / 2)).map
                (fun ds => letters ++ ds))
            else []) :=
  ⟨⟨rfl, by decide, by decide, by decide⟩,
    claim_C6 { min_length := 4, max_length := 4 } cbTrue 1 0
      ⟨[], 0, [], false⟩ 4 (fun _ _ => rfl) (fun _ => rfl) rfl (by decide)
      (by decide) (by decide)⟩

/-! ### The fallback never out-emits the full product (claim C10) -/

/-- Binomial bound: the three fallback groups at length `L ≥ 4` are
three distinct terms of the binomial expansion of `(26 + 10)^L`. -/
theorem tri_le (L : Nat) (hL : 4 ≤ L) :
    26 ^ L + 10 ^ L + 26 ^ (L / 2) * 10 ^ (L - L / 2) ≤ 36 ^ L := by
  have h36 : (36 : ℕ) = 26 + 10 := by norm_num
  rw [h36, add_pow 26 10 L]
  simp only [Nat.cast_id]
  set h := L / 2 with hh
  have hh1 : 2 ≤ h := by omega
  have hh2 : h < L := by omega
  have hsub : ({0, h, L} : Finset ℕ) ⊆ Finset.range (L + 1) := by
    intro x hx
    simp only [Finset.mem_insert, Finset.mem_singleton] at hx
    rw [Finset.mem_range]
    rcases hx with rfl | rfl | rfl <;> omega
  have h0h : (0 : ℕ) ∉ ({h, L} : Finset ℕ) := by
    simp only [Finset.mem_insert, Finset.mem_singleton]
    omega
  have hhL : h ∉ ({L} : Finset ℕ) := by
    simp only [Finset.mem_singleton]
    omega
  have hsum : ∑ k in ({0, h, L} : Finset ℕ), 26 ^ k * 10 ^ (L - k)
        * (L.choose k)
      ≤ ∑ k in Finset.range (L + 1), 26 ^ k * 10 ^ (L - k) * (L.choose k) :=
    Finset.sum_le_sum_of_subset hsub
  rw [Finset.sum_insert h0h, Finset.sum_insert hhL,
    Finset.sum_singleton] at hsum
  have e0 : (26 : ℕ) ^ 0 * 10 ^ (L - 0) * (L.choose 0) = 10 ^ L := by simp
  have eL : (26 : ℕ) ^ L * 10 ^ (L - L) * (L.choose L) = 26 ^ L := by simp
  have eh : (26 : ℕ) ^ h * 10 ^ (L - h)
      ≤ 26 ^ h * 10 ^ (L - h) * (L.choose h) :=
    Nat.le_mul_of_pos_right _ (Nat.choose_pos (by omega))
  rw [e0, eL] at hsum
  omega

theorem emitGroup_count_le (cb : GenCallbacks) (interval total : Nat)
    (cap : Option Nat) (items : List (List Char)) (st : GenState) :
    (emitGroup cb interval total cap items st).count
      ≤ st.count + items.length := by
  obtain ⟨k, hk, _, hc⟩ := emitGroup_take cb interval total cap items st
  omega

/-- One length iteration never emits more than the full product the
estimate charges for that length: the structured fallback's three
groups are dominated by the binomial expansion of `charset^L`. -/
theorem genLength_count_le (g : PasswordGenerator) (cb : GenCallbacks)
    (interval total : Nat) (st : GenState) (L : Nat) :
    (genLength g cb interval total st L).count
      ≤ st.count + g.char_count ^ L := by
  by_cases hst : st.stopped = true
  · simp [genLength, hst]
  · simp only [Bool.not_eq_true] at hst
    have hfull : (pyProduct g.activeChars L).length = g.char_count ^ L := by
      rw [pyProduct_length, activeChars_length]
    by_cases hc1 : capLt g.MAX_PASSWORDS
        ((g.activeChars).length ^ L + st.count) = true
    · by_cases hc2 : L ≤ 3
      · simp only [genLength, hst, Bool.false_eq_true, if_false, hc1,
          if_true, hc2]
        have := emitGroup_count_le cb interval total g.MAX_PASSWORDS
          (pyProduct g.activeChars L) st
        omega
      · have h4L : 4 ≤ L := by omega
        simp only [genLength, hst, Bool.false_eq_true, if_false, hc1,
          if_true, hc2]
        by_cases hlc : g.use_lowercase = true <;>
          by_cases hdg : g.use_digits = true
        · simp only [hlc, hdg, h4L, and_self, and_true, true_and, if_true]
          have h1 := emitGroup_count_le cb interval total g.MAX_PASSWORDS
            (pyProduct ascii_lowercase L) st
          have h2 := emitGroup_count_le cb interval total g.MAX_PASSWORDS
            (pyProduct digit_chars L)
            (emitGroup cb interval total g.MAX_PASSWORDS
              (pyProduct ascii_lowercase L) st)
          have h3 := emitGroup_count_le cb interval total g.MAX_PASSWORDS
            (mixedGroup L)
            (emitGroup cb interval total g.MAX_PASSWORDS
              (pyProduct digit_chars L)
              (emitGroup cb interval total g.MAX_PASSWORDS
                (pyProduct ascii_lowercase L) st))
          rw [pyProduct_length, ascii_lowercase_length] at h1
          rw [pyProduct_length, digit_chars_length] at h2
          rw [mixedGroup_length] at h3
          have hb := tri_le L h4L
          have hcc : (36 : ℕ) ^ L ≤ g.char_count ^ L :=
            Nat.pow_le_pow_left (char_count_both g hlc hdg) L
          omega
        · simp only [hlc, hdg, Bool.false_eq_true, and_false, if_true,
            if_false]
          have h1 := emitGroup_count_le cb interval total g.MAX_PASSWORDS
            (pyProduct ascii_lowercase L) st
          rw [pyProduct_length, ascii_lowercase_length] at h1
          have hcc : (26 : ℕ) ^ L ≤ g.char_count ^ L :=
            Nat.pow_le_pow_left (char_count_lower g hlc) L
          omega
        · simp only [hlc, hdg, Bool.false_eq_true, false_and, and_false,
            if_true, if_false]
          have h1 := emitGroup_count_le cb interval total g.MAX_PASSWORDS
            (pyProduct digit_chars L) st
          rw [pyProduct_length, digit_chars_length] at h1
          have hcc : (10 : ℕ) ^ L ≤ g.char_count ^ L :=
            Nat.pow_le_pow_left (char_count_digits g hdg) L
          omega
        · simp only [hlc, hdg, Bool.false_eq_true, false_and, and_false,
            if_false]
          omega
    · simp only [genLength, hst, Bool.false_eq_true, if_false, hc1]
      have := emitGroup_count_le cb interval total g.MAX_PASSWORDS
        (pyProduct g.activeChars L) st
      omega

theorem fold_count_le (g : PasswordGenerator) (cb : GenCallbacks)
    (interval total : Nat) :
    ∀ (ls : List Nat) (st : GenState),
    (ls.foldl (genLength g cb interval total) st).count
      ≤ st.count + ((ls.map (fun L => g.char_count ^ L)).sum) := by
  intro ls
  induction ls with
  | nil => intro st; simp
  | cons L ls ih =>
    intro st
    rw [List.foldl_cons]
    have h1 := ih (genLength g cb interval total st L)
    have h2 := genLength_count_le g cb interval total st L
    simp only [List.map_cons, List.sum_cons]
    omega

theorem rawTotal_eq_mapsum (g : PasswordGenerator) :
    g.rawTotal = ((g.lengthRange).map (fun L => g.char_count ^ L)).sum := by
  unfold PasswordGenerator.rawTotal
  rw [foldl_add_eq_sum (fun L => g.char_count ^ L), Nat.zero_add]

/-- The final count of a full run never exceeds the raw sum of the
per-length full products. -/
theorem generate_count_le_raw (g : PasswordGenerator) (cb : GenCallbacks) :
    (g.generate_passwords cb).count ≤ g.rawTotal := by
  have hcount : (g.generate_passwords cb).count
      = (((g.lengthRange)).foldl
          (genLength g cb (max 1 (min 10000 (g.estimate_count / 100)))
            g.estimate_count)
          ⟨[], 0, [(0, g.estimate_count)], false⟩).count := by
    unfold PasswordGenerator.generate_passwords
    by_cases hstop : ((g.lengthRange).foldl
        (genLength g cb (max 1 (min 10000 (g.estimate_count / 100)))
          g.estimate_count)
        ⟨[], 0, [(0, g.estimate_count)], false⟩).stopped = true <;>
      simp [hstop]
  rw [hcount, rawTotal_eq_mapsum]
  have := fold_count_le g cb (max 1 (min 10000 (g.estimate_count / 100)))
    g.estimate_count (g.lengthRange) ⟨[], 0, [(0, g.estimate_count)], false⟩
  simpa using this

/-- Claim C10: the running emitted count (which always equals the list
length) never exceeds `estimate_count` — the fallback subsets and
short-length products are dominated by the full products the estimate
charges — and consequently every progress callback receives a count at
most the reported total, and the reported total is always the
estimate. -/
theorem claim_C10 (g : PasswordGenerator) (cb : GenCallbacks) :
    (g.generate_passwords cb).passwords.length
        = (g.generate_passwords cb).count
    ∧ (g.generate_passwords cb).count ≤ g.estimate_count
    ∧ (∀ p ∈ (g.generate_passwords cb).progress_calls,
        p.1 ≤ g.estimate_count ∧ p.2 = g.estimate_count) := by
  obtain ⟨hlen, hcap, hcalls⟩ := generate_passwords_inv g cb
  have hraw := generate_count_le_raw g cb
  have hest : (g.generate_passwords cb).count ≤ g.estimate_count := by
    unfold PasswordGenerator.estimate_count
    by_cases hnl : g.no_limit = true
    · simp only [hnl, if_true]
      exact hraw
    · simp only [Bool.not_eq_true] at hnl
      simp only [hnl, Bool.false_eq_true, if_false]
      refine Nat.le_min.2 ⟨hraw, ?_⟩
      have hmp : g.MAX_PASSWORDS = some 1000000 := by
        simp [PasswordGenerator.MAX_PASSWORDS, hnl]
      rw [hmp] at hcap
      exact hcap.1
  refine ⟨hlen, hest, fun p hp => ?_⟩
  obtain ⟨h1, h2⟩ := hcalls p hp
  exact ⟨le_trans h1 hest, h2⟩
